import Mathlib

/-!
# Component registry: dependency resolution and readiness gating

A shallow embedding of
`platform-operator/controllers/verrazzano/component/registry/registry.go`
(`OverrideGetComponentsFn`, `ResetGetComponentsFn`, `GetComponents`,
`FindComponent`, `checkDependencies`, `ComponentDependenciesMet`) and of
`GetNamespacesForNotReadyComponents` of `tools/vz/pkg/helpers/vzhelper.go`,
and theorems about them.

Modelling conventions

* `spi.Component` is an interface declared outside the registry package; the
  registry only calls `Name()`, `GetDependencies()` and `IsReady(context)` on
  it, so a component is a record of these three methods.  The type of
  `spi.ComponentContext` is a parameter `Ctx`; the registry only hands it to
  `IsReady` and to the logger.
* Logging (`context.Log()`) has no influence on any returned value and is
  left out.
* A Go `map[string]bool` is an association list with pairwise distinct keys;
  a variable of map type is `Option` of it (`none` is the `nil` map).
* A Go call that panics has the outcome `Except.error` of the panic message.
* Go recursion is unbounded.  `checkDependencies` takes a `fuel` argument
  bounding the depth of nested calls; the result `none` means that the call
  needs a deeper stack than `fuel`.  A call that yields `none` for every
  `fuel` never returns.
-/

set_option autoImplicit false

namespace Registry

variable {Ctx : Type}

/-! ## Data model -/

/-- The methods of `spi.Component` used by the registry. -/
structure Component (Ctx : Type) where
  /-- Method `Name()`. -/
  Name : String
  /-- Method `GetDependencies()`. -/
  GetDependencies : List String
  /-- Method `IsReady(context)`. -/
  IsReady : Ctx → Bool

/-- The package-level state: the variable `getComponentsFn`. -/
structure State (Ctx : Type) where
  /-- Variable `var getComponentsFn = getComponents`. -/
  getComponentsFn : Unit → List (Component Ctx)

/-- Contents of a non-nil Go `map[string]bool`. -/
abbrev GoMap := List (String × Bool)

/-- The test `_, ok := m[k]` on a non-nil map. -/
def hasKey (m : GoMap) (k : String) : Bool :=
  m.any (fun e => decide (e.1 = k))

/-- The assignment `m[k] = v` on a non-nil map: overwrite the entry of `k`, or add one. -/
def setKey : GoMap → String → Bool → GoMap
  | [], k, v => [(k, v)]
  | (k', v') :: rest, k, v =>
    if k' = k then (k, v) :: rest else (k', v') :: setKey rest k v

/-- The keys of a map variable (`nil` has none). -/
def keys (trace : Option GoMap) : List String :=
  match trace with
  | none => []
  | some m => m.map Prod.fst

/-- The values of a map variable (`nil` has none). -/
def values (trace : Option GoMap) : List Bool :=
  match trace with
  | none => []
  | some m => m.map Prod.snd

/-- The length `len(trace)`. -/
def len (trace : Option GoMap) : Nat :=
  match trace with
  | none => 0
  | some m => m.length

/-! ## Operations -/

/-- Function `GetComponents`: `return getComponentsFn()`. -/
def GetComponents (s : State Ctx) : List (Component Ctx) :=
  s.getComponentsFn ()

/-- The loop of `FindComponent` over the catalog.  `zero` stands for
`&helm.HelmComponent{}`; package `helm` lies outside the registry. -/
def findIn (zero : Component Ctx) (releaseName : String) :
    List (Component Ctx) → Bool × Component Ctx
  | [] => (false, zero)
  | comp :: rest =>
    if comp.Name = releaseName then (true, comp) else findIn zero releaseName rest

/-- Function `FindComponent(releaseName)`. -/
def FindComponent (zero : Component Ctx) (s : State Ctx) (releaseName : String) :
    Bool × Component Ctx :=
  findIn zero releaseName (GetComponents s)

/-- The error `fmt.Errorf("Illegal state, dependency cycle found for %s: %s", ...)`. -/
def cycleError (name dependencyName : String) : String :=
  "Illegal state, dependency cycle found for " ++ name ++ ": " ++ dependencyName

/-- The error
`fmt.Errorf("Illegal state, declared dependency not found for %s: %s", ...)`. -/
def notFoundError (name dependencyName : String) : String :=
  "Illegal state, declared dependency not found for " ++ name ++ ": " ++ dependencyName

/-- The map a loop iteration works on after
`if trace == nil { trace = make(map[string]bool) }`. -/
def madeMap (trace : Option GoMap) : GoMap :=
  match trace with
  | none => []
  | some m => m

/-- The `for _, dependencyName := range c.GetDependencies()` loop of
`checkDependencies`, from the dependency names still to visit and the current
`trace`.  `recurse` is the nested call `checkDependencies(dependency, context,
trace)`.

The nested call's first result is bound to a variable that shadows `trace`
inside the `if` statement only.  The enclosing `trace` is non-nil at that
point and refers to the map object the nested call has updated in place, so
after a successful nested call its contents are the contents the nested call
returned (`trace'.getD m`: a nested call given a non-nil map returns that
map). -/
def checkLoop (recurse : Component Ctx → Option GoMap → Option (Option GoMap × Option String))
    (zero : Component Ctx) (s : State Ctx) (context : Ctx) (c : Component Ctx) :
    List String → Option GoMap → Option (Option GoMap × Option String)
  | [], trace => some (trace, none)
  | dependencyName :: rest, trace =>
    let m : GoMap := madeMap trace
    if hasKey m dependencyName then
      some (some m, some (cycleError c.Name dependencyName))
    else
      match FindComponent zero s dependencyName with
      | (false, _) => some (some m, some (notFoundError c.Name dependencyName))
      | (true, dependency) =>
        match recurse dependency (some m) with
        | none => none
        | some (trace', some err) => some (trace', some err)
        | some (trace', none) =>
          let m' : GoMap := trace'.getD m
          if !dependency.IsReady context then
            checkLoop recurse zero s context c rest (some (setKey m' dependencyName false))
          else
            checkLoop recurse zero s context c rest (some (setKey m' dependencyName true))

/-- Function `checkDependencies(c, context, trace)` with at most `fuel` nested calls
(this one included).  The result is `(trace, err)`, `err = none` being the
`nil` error. -/
def checkDependencies (zero : Component Ctx) (s : State Ctx) (context : Ctx) :
    Nat → Component Ctx → Option GoMap → Option (Option GoMap × Option String)
  | 0, _, _ => none
  | fuel + 1, c, trace =>
    checkLoop (checkDependencies zero s context fuel) zero s context c c.GetDependencies trace

/-- Function `ComponentDependenciesMet(c, context)`, the nested walk bounded by
`fuel`. -/
def ComponentDependenciesMet (zero : Component Ctx) (s : State Ctx) (fuel : Nat)
    (c : Component Ctx) (context : Ctx) : Option Bool :=
  match checkDependencies zero s context fuel c none with
  | none => none
  | some (_, some _) => some false
  | some (trace, none) =>
    if len trace = 0 then some true
    else some ((values trace).all (fun value => value))

/-! ## The dependency graph of a catalog -/

/-- Relation `Reach zero s c n`: `n` is a transitive dependency name of `c`, a name
met by following `GetDependencies` from `c` through `FindComponent`. -/
inductive Reach (zero : Component Ctx) (s : State Ctx) : Component Ctx → String → Prop
  | direct {c : Component Ctx} {n : String} : n ∈ c.GetDependencies → Reach zero s c n
  | step {c q : Component Ctx} {d n : String} : d ∈ c.GetDependencies →
      FindComponent zero s d = (true, q) → Reach zero s q n → Reach zero s c n

/-- The dependency graph reachable from `c` is acyclic: no transitive
dependency name of `c` is a transitive dependency name of the component it
resolves to. -/
def NoCycle (zero : Component Ctx) (s : State Ctx) (c : Component Ctx) : Prop :=
  ∀ n q, Reach zero s c n → FindComponent zero s n = (true, q) → ¬ Reach zero s q n

/-- Every transitive dependency name of `c` resolves through `FindComponent`. -/
def Resolvable (zero : Component Ctx) (s : State Ctx) (c : Component Ctx) : Prop :=
  ∀ n, Reach zero s c n → (FindComponent zero s n).1 = true

/-- Relation `Under zero s d n`: the entry `d` of a dependency list leads to the name
`n`, which is `d` itself or a transitive dependency name of the component `d`
resolves to. -/
def Under (zero : Component Ctx) (s : State Ctx) (d n : String) : Prop :=
  n = d ∨ ∃ q, FindComponent zero s d = (true, q) ∧ Reach zero s q n

/-- No two entries of the dependency list lead to a common name (so no name
is listed twice). -/
def Separated (zero : Component Ctx) (s : State Ctx) (deps : List String) : Prop :=
  deps.Pairwise (fun d₁ d₂ => ∀ n, Under zero s d₁ n → ¬ Under zero s d₂ n)

/-- The dependency graph reachable from `c` is a tree: in the dependency
list of `c` and of every component reached from `c`, no two entries lead to a
common name.  Together with `NoCycle`, every transitive dependency name is
reached along exactly one path. -/
def TreeShaped (zero : Component Ctx) (s : State Ctx) (c : Component Ctx) : Prop :=
  Separated zero s c.GetDependencies ∧
  ∀ n q, Reach zero s c n → FindComponent zero s n = (true, q) →
    Separated zero s q.GetDependencies

/-- Two components with the same name and the same dependency list; their
readiness may differ. -/
def SameShape (c c' : Component Ctx) : Prop :=
  c.Name = c'.Name ∧ c.GetDependencies = c'.GetDependencies

/-- The structural outcome of a walk: the key list of the trace and the
error. -/
def outcome (res : Option GoMap × Option String) : List String × Option String :=
  (keys res.1, res.2)

/-- The invariant of a call that returns: keys are kept; every key of the
result was given or is a transitive dependency name; every entry of the result
was given or holds the readiness of the component its key resolves to; and
when the error is nil, every transitive dependency name resolves and is a
key. -/
def TraceInv (zero : Component Ctx) (s : State Ctx) (context : Ctx) (c : Component Ctx)
    (t : Option GoMap)
    (res : Option GoMap × Option String) : Prop :=
  (∀ n ∈ keys t, n ∈ keys res.1) ∧
  (∀ n ∈ keys res.1, n ∈ keys t ∨ Reach zero s c n) ∧
  (∀ e ∈ madeMap res.1, e ∈ madeMap t ∨
    (e.2 = (FindComponent zero s e.1).2.IsReady context ∧ Reach zero s c e.1)) ∧
  (res.2 = none → ∀ n, Reach zero s c n →
    n ∈ keys res.1 ∧ (FindComponent zero s n).1 = true)

/-- The invariant of a loop that returns, from some position of the
dependency list on. -/
def LoopInv (zero : Component Ctx) (s : State Ctx) (context : Ctx) (rest : List String)
    (t : Option GoMap)
    (res : Option GoMap × Option String) : Prop :=
  (∀ n ∈ keys t, n ∈ keys res.1) ∧
  (∀ n ∈ keys res.1, n ∈ keys t ∨ ∃ d ∈ rest, Under zero s d n) ∧
  (∀ e ∈ madeMap res.1, e ∈ madeMap t ∨
    (e.2 = (FindComponent zero s e.1).2.IsReady context ∧ ∃ d ∈ rest, Under zero s d e.1)) ∧
  (res.2 = none → ∀ d ∈ rest, ∀ n, Under zero s d n →
    n ∈ keys res.1 ∧ (FindComponent zero s n).1 = true)

/-! ## The catalog source as state -/

/-- The type `GetCompoentsFnType func() []spi.Component`. -/
abbrev GetCompoentsFnType (Ctx : Type) := Unit → List (Component Ctx)

/-- The state a process starts in: `var getComponentsFn = getComponents`.
The production function `getComponents` builds its list from packages outside
the registry, so it is a parameter. -/
def initialState (getComponents : GetCompoentsFnType Ctx) : State Ctx :=
  ⟨getComponents⟩

/-- Function `OverrideGetComponentsFn(fnType)`: `getComponentsFn = fnType`. -/
def OverrideGetComponentsFn (fnType : GetCompoentsFnType Ctx) (_s : State Ctx) : State Ctx :=
  ⟨fnType⟩

/-- Function `ResetGetComponentsFn()`: `getComponentsFn = getComponents`. -/
def ResetGetComponentsFn (getComponents : GetCompoentsFnType Ctx) (_s : State Ctx) :
    State Ctx :=
  ⟨getComponents⟩

/-! ## Reading a trace -/

/-- The read `v, ok := trace[k]` of a map variable: `some v` when `ok`. -/
def getKey (trace : Option GoMap) (k : String) : Option Bool :=
  match trace with
  | none => none
  | some m => (m.find? (fun e => decide (e.1 = k))).map Prod.snd

/-! ## The dependency relation between components -/

/-- Component `p` declares a dependency name that `FindComponent` resolves to
component `q`. -/
def DependsOn (zero : Component Ctx) (s : State Ctx) (p q : Component Ctx) : Prop :=
  ∃ n ∈ p.GetDependencies, FindComponent zero s n = (true, q)

/-- The relation `DependsOn` has no cycle reachable from `c`: no component
reached from `c` along the relation, `c` included, reaches itself. -/
def AcyclicFrom (zero : Component Ctx) (s : State Ctx) (c : Component Ctx) : Prop :=
  ∀ q, Relation.ReflTransGen (DependsOn zero s) c q →
    ¬ Relation.TransGen (DependsOn zero s) q q

/-! ## Small catalogs used as concrete inputs -/

/-- A component of a test catalog, ready or not whatever the context. -/
def comp (name : String) (deps : List String) (ready : Bool) : Component Unit :=
  ⟨name, deps, fun _ => ready⟩

/-- The placeholder used in concrete evaluations. -/
def zeroComp : Component Unit := comp "" [] false

/-- Catalog {X(deps:[Y]), Y(deps:[X])} with the given readiness of X and Y. -/
def cycleCatalog (readyX readyY : Bool) : State Unit :=
  ⟨fun _ => [comp "X" ["Y"] readyX, comp "Y" ["X"] readyY]⟩

/-- Catalog {D(deps:[]), B(deps:[D]), C(deps:[]), A(deps:[B,C])}, a tree
under A; D is not ready. -/
def treeCatalog : State Unit :=
  ⟨fun _ => [comp "D" [] false, comp "B" ["D"] true, comp "C" [] true,
    comp "A" ["B", "C"] true]⟩

/-- Catalog {D(deps:[]), B(deps:[D]), C(deps:[D]), A(deps:[B,C])}. -/
def diamondCatalog : State Unit :=
  ⟨fun _ => [comp "D" [] true, comp "B" ["D"] true, comp "C" ["D"] true,
    comp "A" ["B", "C"] true]⟩

/-- Catalog {Ingress(deps:[]), Mesh(deps:[]), App(deps:[Ingress,Mesh])},
Ingress ready, Mesh not ready. -/
def appCatalog : State Unit :=
  ⟨fun _ => [comp "Ingress" [] true, comp "Mesh" [] false,
    comp "App" ["Ingress", "Mesh"] true]⟩

end Registry

/-! ## Package `helpers`: namespaces of the components that are not ready -/

namespace Helpers

open Registry (GoMap setKey)

/-- The read `m[k]` of a `map[string]bool` variable, `nil` allowed: the value
stored, or the zero value `false`. -/
def mapIndex (m : Option GoMap) (k : String) : Bool :=
  match m with
  | none => false
  | some l =>
    match l.find? (fun e => decide (e.1 = k)) with
    | none => false
    | some e => e.2

/-- The assignment `m[k] = v` to a `map[string]bool` variable: it panics when
the variable is `nil`. -/
def mapAssign (m : Option GoMap) (k : String) (v : Bool) : Except String (Option GoMap) :=
  match m with
  | none => Except.error "assignment to entry in nil map"
  | some l => Except.ok (some (setKey l k v))

/-- The inner loop `for _, eachNameSpace := range ...` of
`GetNamespacesForNotReadyComponents`, on the variables `nsList` and
`nsListMap`. -/
def namespaceLoop :
    List String → List String × Option GoMap → Except String (List String × Option GoMap)
  | [], vars => Except.ok vars
  | eachNameSpace :: rest, (nsList, nsListMap) =>
    if !mapIndex nsListMap eachNameSpace then
      -- nsList = append(nsList, eachNameSpace); nsListMap[eachNameSpace] = true
      match mapAssign nsListMap eachNameSpace true with
      | Except.error p => Except.error p
      | Except.ok nsListMap' => namespaceLoop rest (nsList ++ [eachNameSpace], nsListMap')
    else
      namespaceLoop rest (nsList, nsListMap)

/-- The outer loop `for _, eachComp := range allComponents`.  The map
`constants.ComponentNameToNamespacesMap` is declared outside the package and
is a parameter; a component without entry has the `nil` list. -/
def componentLoop (ComponentNameToNamespacesMap : String → List String) :
    List String → List String × Option GoMap → Except String (List String × Option GoMap)
  | [], vars => Except.ok vars
  | eachComp :: rest, vars =>
    match namespaceLoop (ComponentNameToNamespacesMap eachComp) vars with
    | Except.error p => Except.error p
    | Except.ok vars' => componentLoop ComponentNameToNamespacesMap rest vars'

/-- Function `GetNamespacesForNotReadyComponents(client)`.  `notReady` is what
the call `GetComponentsNotReady(client)` returns, the list of names and the
error (`none` for `nil`).  The result is `(nsList, err)`, or the panic. -/
def GetNamespacesForNotReadyComponents (ComponentNameToNamespacesMap : String → List String)
    (notReady : List String × Option String) : Except String (List String × Option String) :=
  -- var nsList []string; var nsListMap map[string]bool
  let nsList : List String := []
  let nsListMap : Option GoMap := none
  match notReady with
  | (_, some err) => Except.ok (nsList, some err)
  | (allComponents, none) =>
    match componentLoop ComponentNameToNamespacesMap allComponents (nsList, nsListMap) with
    | Except.error p => Except.error p
    | Except.ok (nsList', _) => Except.ok (nsList', none)

/-- A one-entry table: `component` has the namespaces `namespaces`, every
other name none. -/
def singleEntry (component : String) (namespaces : List String) : String → List String :=
  fun name => if name = component then namespaces else []

end Helpers

namespace Registry

variable {Ctx : Type}

/-! ## Basic facts about maps -/

theorem hasKey_iff (m : GoMap) (k : String) : hasKey m k = true ↔ k ∈ m.map Prod.fst := by
  induction m with
  | nil => simp [hasKey]
  | cons e rest ih =>
    simp only [hasKey, List.any_cons, Bool.or_eq_true, decide_eq_true_eq, List.map_cons,
      List.mem_cons] at ih ⊢
    rw [ih]
    constructor
    · rintro (h | h)
      · exact Or.inl h.symm
      · exact Or.inr h
    · rintro (h | h)
      · exact Or.inl h.symm
      · exact Or.inr h

theorem hasKey_false_iff (m : GoMap) (k : String) :
    hasKey m k = false ↔ k ∉ m.map Prod.fst := by
  rw [← hasKey_iff]
  cases hasKey m k <;> simp

theorem keys_setKey (m : GoMap) (k : String) (v : Bool) :
    (setKey m k v).map Prod.fst
      = if k ∈ m.map Prod.fst then m.map Prod.fst else m.map Prod.fst ++ [k] := by
  induction m with
  | nil => simp [setKey]
  | cons e rest ih =>
    obtain ⟨k', v'⟩ := e
    by_cases hk : k' = k
    · subst hk
      simp [setKey]
    · have hk' : ¬ k = k' := fun h => hk h.symm
      simp only [setKey, hk, if_false, List.map_cons, ih, List.mem_cons, hk', false_or]
      split <;> simp

theorem mem_keys_setKey (m : GoMap) (k : String) (v : Bool) (n : String) :
    n ∈ (setKey m k v).map Prod.fst ↔ n = k ∨ n ∈ m.map Prod.fst := by
  rw [keys_setKey]
  split
  · constructor
    · exact Or.inr
    · rintro (h | h)
      · exact h ▸ (by assumption)
      · exact h
  · simp [or_comm]

/-- Every entry of `setKey m k v` is the new entry or an entry of `m`. -/
theorem mem_setKey (m : GoMap) (k : String) (v : Bool) (e : String × Bool)
    (h : e ∈ setKey m k v) : e = (k, v) ∨ e ∈ m := by
  induction m with
  | nil => simpa [setKey] using h
  | cons e' rest ih =>
    obtain ⟨k', v'⟩ := e'
    by_cases hk : k' = k
    · simp only [setKey, hk, if_true, List.mem_cons] at h
      rcases h with h | h
      · exact Or.inl h
      · exact Or.inr (List.mem_cons_of_mem _ h)
    · simp only [setKey, hk, if_false, List.mem_cons] at h
      rcases h with h | h
      · exact Or.inr (h ▸ List.mem_cons_self _ _)
      · rcases ih h with h' | h'
        · exact Or.inl h'
        · exact Or.inr (List.mem_cons_of_mem _ h')

/-! ## Facts about the lookup loop -/

/-- The lookup loop finds a component exactly when the list has one of that
name. -/
theorem findIn_fst (zero : Component Ctx) (n : String) (l : List (Component Ctx)) :
    (findIn zero n l).1 = true ↔ ∃ comp ∈ l, comp.Name = n := by
  induction l with
  | nil => simp [findIn]
  | cons a rest ih =>
    by_cases ha : a.Name = n
    · simp [findIn, ha]
    · simp [findIn, ha, ih]

/-- The lookup loop returns the first component of the given name. -/
theorem findIn_first (zero : Component Ctx) (n : String) (comp : Component Ctx)
    (post : List (Component Ctx)) (hn : comp.Name = n) :
    ∀ pre : List (Component Ctx), (∀ p ∈ pre, p.Name ≠ n) →
      findIn zero n (pre ++ comp :: post) = (true, comp) := by
  intro pre
  induction pre with
  | nil => intro _; simp [findIn, hn]
  | cons a rest ih =>
    intro hpre
    have ha : a.Name ≠ n := hpre a (List.mem_cons_self _ _)
    simp only [List.cons_append, findIn, ha, if_false]
    exact ih (fun p hp => hpre p (List.mem_cons_of_mem _ hp))

/-- Without a component of the given name the lookup loop returns the
placeholder. -/
theorem findIn_absent (zero : Component Ctx) (n : String) :
    ∀ l : List (Component Ctx), (∀ comp ∈ l, comp.Name ≠ n) → findIn zero n l = (false, zero) := by
  intro l
  induction l with
  | nil => intro _; rfl
  | cons a rest ih =>
    intro h
    have ha : a.Name ≠ n := h a (List.mem_cons_self _ _)
    simp only [findIn, ha, if_false]
    exact ih (fun p hp => h p (List.mem_cons_of_mem _ hp))

/-- A component found by the lookup loop is a member of the list and has the
name looked up. -/
theorem findIn_found (zero : Component Ctx) (n : String) (q : Component Ctx) :
    ∀ l : List (Component Ctx), findIn zero n l = (true, q) → q ∈ l ∧ q.Name = n := by
  intro l
  induction l with
  | nil => intro h; simp [findIn] at h
  | cons a rest ih =>
    intro h
    by_cases ha : a.Name = n
    · simp only [findIn, ha, if_true, Prod.mk.injEq, true_and] at h
      subst h
      exact ⟨List.mem_cons_self _ _, ha⟩
    · simp only [findIn, ha, if_false] at h
      exact ⟨List.mem_cons_of_mem _ (ih h).1, (ih h).2⟩

/-! ## The walk: fuel, prefixes of a dependency list -/

section Walk

variable (zero : Component Ctx) (s : State Ctx) (context : Ctx)

/-- One iteration of the loop, by cases. -/
theorem checkLoop_cons
    (recurse : Component Ctx → Option GoMap → Option (Option GoMap × Option String))
    (c : Component Ctx) (d : String) (rest : List String) (trace : Option GoMap) :
    checkLoop recurse zero s context c (d :: rest) trace =
      if hasKey (madeMap trace) d then
        some (some (madeMap trace), some (cycleError c.Name d))
      else if (FindComponent zero s d).1 = false then
        some (some (madeMap trace), some (notFoundError c.Name d))
      else
        match recurse (FindComponent zero s d).2 (some (madeMap trace)) with
        | none => none
        | some (trace', some err) => some (trace', some err)
        | some (trace', none) =>
          checkLoop recurse zero s context c rest
            (some (setKey (trace'.getD (madeMap trace)) d
              ((FindComponent zero s d).2.IsReady context))) := by
  conv_lhs => unfold checkLoop
  simp only
  split
  · rfl
  · rcases hf : FindComponent zero s d with ⟨found, dependency⟩
    cases found
    · simp
    · simp only [Bool.true_eq_false, if_false]
      rcases hr : recurse dependency _ with _ | ⟨trace', _ | err⟩
      · rfl
      · cases hready : dependency.IsReady context <;> simp [hready]
      · rfl

/-- The loop returns the same result when its nested calls are allowed to go
deeper. -/
theorem checkLoop_mono
    (r₁ r₂ : Component Ctx → Option GoMap → Option (Option GoMap × Option String))
    (h : ∀ d t res, r₁ d t = some res → r₂ d t = some res) (c : Component Ctx) :
    ∀ (deps : List String) (trace : Option GoMap) (res : Option GoMap × Option String),
      checkLoop r₁ zero s context c deps trace = some res →
      checkLoop r₂ zero s context c deps trace = some res := by
  intro deps
  induction deps with
  | nil => intro trace res hres; simpa [checkLoop] using hres
  | cons d rest ih =>
    intro trace res hres
    rw [checkLoop_cons] at hres ⊢
    split
    · rename_i hk; rw [if_pos hk] at hres; exact hres
    · rename_i hk
      rw [if_neg hk] at hres
      split
      · rename_i hf; rw [if_pos hf] at hres; exact hres
      · rename_i hf
        rw [if_neg hf] at hres
        rcases h₁ : r₁ (FindComponent zero s d).2 (some (madeMap trace)) with
          _ | ⟨trace', _ | err⟩
        · rw [h₁] at hres; cases hres
        · rw [h₁] at hres
          rw [h _ _ _ h₁]
          exact ih _ _ hres
        · rw [h₁] at hres
          rw [h _ _ _ h₁]
          exact hres

/-- A call that returns within `fuel` nested calls returns the same result
within `fuel + 1`. -/
theorem checkDependencies_succ_fuel :
    ∀ (fuel : Nat) (c : Component Ctx) (trace : Option GoMap)
      (res : Option GoMap × Option String),
      checkDependencies zero s context fuel c trace = some res →
      checkDependencies zero s context (fuel + 1) c trace = some res := by
  intro fuel
  induction fuel with
  | zero => intro c trace res h; simp [checkDependencies] at h
  | succ n ih =>
    intro c trace res h
    rw [checkDependencies] at h ⊢
    exact checkLoop_mono zero s context _ _ ih c _ _ _ h

/-- A call that returns within `fuel` nested calls returns the same result
with any larger bound. -/
theorem checkDependencies_mono {fuel fuel' : Nat} (hle : fuel ≤ fuel')
    (c : Component Ctx) (trace : Option GoMap) (res : Option GoMap × Option String)
    (h : checkDependencies zero s context fuel c trace = some res) :
    checkDependencies zero s context fuel' c trace = some res := by
  induction hle with
  | refl => exact h
  | step _ ih => exact checkDependencies_succ_fuel zero s context _ c trace res ih

/-- The loop over `pre ++ rest` is the loop over `pre` followed by the loop
over `rest` when the former returns a nil error. -/
theorem checkLoop_append
    (recurse : Component Ctx → Option GoMap → Option (Option GoMap × Option String))
    (c : Component Ctx) (rest : List String) :
    ∀ (pre : List String) (trace : Option GoMap),
      checkLoop recurse zero s context c (pre ++ rest) trace =
        match checkLoop recurse zero s context c pre trace with
        | none => none
        | some (trace', some err) => some (trace', some err)
        | some (trace', none) => checkLoop recurse zero s context c rest trace' := by
  intro pre
  induction pre with
  | nil => intro trace; simp [checkLoop]
  | cons d pre ih =>
    intro trace
    rw [List.cons_append, checkLoop_cons, checkLoop_cons]
    split
    · rfl
    · split
      · rfl
      · rcases recurse (FindComponent zero s d).2 (some (madeMap trace)) with
          _ | ⟨trace', _ | err⟩
        · rfl
        · exact ih _
        · rfl

/-- The loop depends on the component only through its name. -/
theorem checkLoop_congr_name
    (recurse : Component Ctx → Option GoMap → Option (Option GoMap × Option String))
    (c c' : Component Ctx) (hname : c.Name = c'.Name) :
    ∀ (deps : List String) (trace : Option GoMap),
      checkLoop recurse zero s context c deps trace
        = checkLoop recurse zero s context c' deps trace := by
  intro deps
  induction deps with
  | nil => intro trace; simp [checkLoop]
  | cons d rest ih =>
    intro trace
    rw [checkLoop_cons, checkLoop_cons, hname]
    split
    · rfl
    · split
      · rfl
      · rcases recurse (FindComponent zero s d).2 (some (madeMap trace)) with
          _ | ⟨trace', _ | err⟩
        · rfl
        · exact ih _
        · rfl

/-- A loop started on a non-nil map returns a non-nil map, provided its
nested calls do. -/
theorem checkLoop_trace_some
    (recurse : Component Ctx → Option GoMap → Option (Option GoMap × Option String))
    (hrec : ∀ q m res, recurse q (some m) = some res → ∃ m', res.1 = some m')
    (c : Component Ctx) :
    ∀ (deps : List String) (m : GoMap) (res : Option GoMap × Option String),
      checkLoop recurse zero s context c deps (some m) = some res → ∃ m', res.1 = some m' := by
  intro deps
  induction deps with
  | nil =>
    intro m res h
    simp only [checkLoop, Option.some.injEq] at h
    exact ⟨m, by rw [← h]⟩
  | cons d rest ih =>
    intro m res h
    rw [checkLoop_cons] at h
    split at h
    · simp only [Option.some.injEq] at h; exact ⟨_, by rw [← h]⟩
    · split at h
      · simp only [Option.some.injEq] at h; exact ⟨_, by rw [← h]⟩
      · rcases h₁ : recurse (FindComponent zero s d).2 (some (madeMap (some m))) with
          _ | ⟨trace', _ | err⟩
        · rw [h₁] at h; cases h
        · rw [h₁] at h; exact ih _ _ h
        · rw [h₁] at h
          simp only [Option.some.injEq] at h
          obtain ⟨m', hm'⟩ := hrec _ _ _ h₁
          exact ⟨m', by rw [← h]; exact hm'⟩

/-- A call given a non-nil map returns a non-nil map. -/
theorem checkDependencies_trace_some :
    ∀ (fuel : Nat) (c : Component Ctx) (m : GoMap) (res : Option GoMap × Option String),
      checkDependencies zero s context fuel c (some m) = some res → ∃ m', res.1 = some m' := by
  intro fuel
  induction fuel with
  | zero => intro c m res h; simp [checkDependencies] at h
  | succ n ih =>
    intro c m res h
    rw [checkDependencies] at h
    exact checkLoop_trace_some zero s context _ ih c _ _ _ h

/-- The four ways one loop iteration ends or goes on: the name is a key
already; the name is not in the catalog; the nested call fails; the nested
call succeeds, the readiness of the dependency is recorded and the loop goes
on with the remaining names. -/
theorem checkLoop_cons_inv (fuel : Nat) (c : Component Ctx) (d : String) (rest : List String)
    (trace : Option GoMap) (res : Option GoMap × Option String)
    (h : checkLoop (checkDependencies zero s context fuel) zero s context c (d :: rest) trace
      = some res) :
    (hasKey (madeMap trace) d = true ∧
      res = (some (madeMap trace), some (cycleError c.Name d))) ∨
    (hasKey (madeMap trace) d = false ∧ (FindComponent zero s d).1 = false ∧
      res = (some (madeMap trace), some (notFoundError c.Name d))) ∨
    (hasKey (madeMap trace) d = false ∧ ∃ q, FindComponent zero s d = (true, q) ∧
      ((∃ m' err, checkDependencies zero s context fuel q (some (madeMap trace))
            = some (some m', some err) ∧ res = (some m', some err)) ∨
       (∃ m', checkDependencies zero s context fuel q (some (madeMap trace))
            = some (some m', none) ∧
          checkLoop (checkDependencies zero s context fuel) zero s context c rest
            (some (setKey m' d (q.IsReady context))) = some res))) := by
  rw [checkLoop_cons] at h
  split at h
  · rename_i hk
    simp only [Option.some.injEq] at h
    exact Or.inl ⟨hk, h.symm⟩
  · rename_i hk
    have hk' : hasKey (madeMap trace) d = false := by simpa using hk
    split at h
    · rename_i hf
      simp only [Option.some.injEq] at h
      exact Or.inr (Or.inl ⟨hk', hf, h.symm⟩)
    · rename_i hf
      have hf' : FindComponent zero s d = (true, (FindComponent zero s d).2) := by
        rcases hq : FindComponent zero s d with ⟨found, q⟩
        rw [hq] at hf
        cases found
        · exact absurd rfl hf
        · rfl
      refine Or.inr (Or.inr ⟨hk', (FindComponent zero s d).2, hf', ?_⟩)
      rcases h₁ : checkDependencies zero s context fuel (FindComponent zero s d).2
          (some (madeMap trace)) with _ | ⟨trace', _ | err⟩
      · rw [h₁] at h; cases h
      · rw [h₁] at h
        obtain ⟨m', hm'⟩ := checkDependencies_trace_some zero s context _ _ _ _ h₁
        simp only at hm'
        subst hm'
        exact Or.inr ⟨m', rfl, h⟩
      · rw [h₁] at h
        obtain ⟨m', hm'⟩ := checkDependencies_trace_some zero s context _ _ _ _ h₁
        simp only at hm'
        subst hm'
        simp only [Option.some.injEq] at h
        exact Or.inl ⟨m', err, rfl, h.symm⟩

/-- Induction over a walk that returns.  `P` is a property of a call
`(depth bound, component, trace given, result)`, `L` of a loop from some
position on `(depth bound of its nested calls, component, names left, trace,
result)`; each case is one way a loop iteration ends or goes on. -/
theorem walk_induction_fuel
    (P : Nat → Component Ctx → Option GoMap → Option GoMap × Option String → Prop)
    (L : Nat → Component Ctx → List String → Option GoMap → Option GoMap × Option String →
      Prop)
    (hdone : ∀ k c t, L k c [] t (t, none))
    (hcycle : ∀ k c d rest t, hasKey (madeMap t) d = true →
      L k c (d :: rest) t (some (madeMap t), some (cycleError c.Name d)))
    (hmissing : ∀ k c d rest t, hasKey (madeMap t) d = false →
      (FindComponent zero s d).1 = false →
      L k c (d :: rest) t (some (madeMap t), some (notFoundError c.Name d)))
    (hfail : ∀ k c d rest t q m' err, hasKey (madeMap t) d = false →
      FindComponent zero s d = (true, q) →
      checkDependencies zero s context k q (some (madeMap t)) = some (some m', some err) →
      P k q (some (madeMap t)) (some m', some err) →
      L k c (d :: rest) t (some m', some err))
    (hnext : ∀ k c d rest t q m' res, hasKey (madeMap t) d = false →
      FindComponent zero s d = (true, q) →
      checkDependencies zero s context k q (some (madeMap t)) = some (some m', none) →
      P k q (some (madeMap t)) (some m', none) →
      L k c rest (some (setKey m' d (q.IsReady context))) res → L k c (d :: rest) t res)
    (hcall : ∀ k c t res, L k c c.GetDependencies t res → P (k + 1) c t res) :
    ∀ (fuel : Nat) (c : Component Ctx) (t : Option GoMap) (res : Option GoMap × Option String),
      checkDependencies zero s context fuel c t = some res → P fuel c t res := by
  intro fuel
  induction fuel with
  | zero => intro c t res h; simp [checkDependencies] at h
  | succ n ih =>
    intro c t res h
    rw [checkDependencies] at h
    apply hcall
    generalize c.GetDependencies = deps at h
    induction deps generalizing t with
    | nil =>
      simp only [checkLoop, Option.some.injEq] at h
      rw [← h]
      exact hdone n c t
    | cons d rest ihl =>
      rcases checkLoop_cons_inv zero s context n c d rest t res h with
        ⟨hk, hres⟩ | ⟨hk, hf, hres⟩ | ⟨hk, q, hq, ⟨m', err, hcd, hres⟩ | ⟨m', hcd, hrest⟩⟩
      · rw [hres]; exact hcycle n c d rest t hk
      · rw [hres]; exact hmissing n c d rest t hk hf
      · rw [hres]; exact hfail n c d rest t q m' err hk hq hcd (ih _ _ _ hcd)
      · exact hnext n c d rest t q m' res hk hq hcd (ih _ _ _ hcd) (ihl _ hrest)

/-- Induction over a walk that returns, for properties that do not mention
the depth bound. -/
theorem walk_induction
    (P : Component Ctx → Option GoMap → Option GoMap × Option String → Prop)
    (L : Component Ctx → List String → Option GoMap → Option GoMap × Option String → Prop)
    (hdone : ∀ c t, L c [] t (t, none))
    (hcycle : ∀ c d rest t, hasKey (madeMap t) d = true →
      L c (d :: rest) t (some (madeMap t), some (cycleError c.Name d)))
    (hmissing : ∀ c d rest t, hasKey (madeMap t) d = false →
      (FindComponent zero s d).1 = false →
      L c (d :: rest) t (some (madeMap t), some (notFoundError c.Name d)))
    (hfail : ∀ c d rest t q m' err fuel, hasKey (madeMap t) d = false →
      FindComponent zero s d = (true, q) →
      checkDependencies zero s context fuel q (some (madeMap t)) = some (some m', some err) →
      P q (some (madeMap t)) (some m', some err) →
      L c (d :: rest) t (some m', some err))
    (hnext : ∀ c d rest t q m' res fuel, hasKey (madeMap t) d = false →
      FindComponent zero s d = (true, q) →
      checkDependencies zero s context fuel q (some (madeMap t)) = some (some m', none) →
      P q (some (madeMap t)) (some m', none) →
      L c rest (some (setKey m' d (q.IsReady context))) res → L c (d :: rest) t res)
    (hcall : ∀ c t res, L c c.GetDependencies t res → P c t res) :
    ∀ (fuel : Nat) (c : Component Ctx) (t : Option GoMap) (res : Option GoMap × Option String),
      checkDependencies zero s context fuel c t = some res → P c t res :=
  walk_induction_fuel zero s context (fun _ => P) (fun _ => L) (fun _ => hdone)
    (fun _ => hcycle) (fun _ => hmissing)
    (fun k c d rest t q m' err => hfail c d rest t q m' err k)
    (fun k c d rest t q m' res => hnext c d rest t q m' res k)
    (fun _ => hcall)

/-! ## Reachability -/

theorem keys_madeMap (t : Option GoMap) : keys (some (madeMap t)) = keys t := by
  cases t <;> rfl

theorem keys_some (m : GoMap) : keys (some m) = m.map Prod.fst := rfl

/-- An entry of a dependency list of `c` leads only to transitive dependency
names of `c`. -/
theorem Reach_of_Under {c : Component Ctx} {d n : String} (hd : d ∈ c.GetDependencies)
    (h : Under zero s d n) : Reach zero s c n := by
  rcases h with h | ⟨q, hq, hr⟩
  · exact h ▸ Reach.direct hd
  · exact Reach.step hd hq hr

/-- Every transitive dependency name of `c` is led to by an entry of the
dependency list of `c`. -/
theorem Under_of_Reach {c : Component Ctx} {n : String} (h : Reach zero s c n) :
    ∃ d ∈ c.GetDependencies, Under zero s d n := by
  cases h with
  | direct hd => exact ⟨n, hd, Or.inl rfl⟩
  | step hd hq hr => exact ⟨_, hd, Or.inr ⟨_, hq, hr⟩⟩

/-- Transitivity: the transitive dependency names of a component that a
transitive dependency name of `c` resolves to are transitive dependency names
of `c`. -/
theorem Reach_trans {c q : Component Ctx} {d n : String} (h₁ : Reach zero s c d)
    (hq : FindComponent zero s d = (true, q)) (h₂ : Reach zero s q n) : Reach zero s c n := by
  induction h₁ with
  | direct hd => exact Reach.step hd hq h₂
  | step hd hq' _ ih => exact Reach.step hd hq' (ih hq)

/-! ## What a returned trace holds -/

theorem madeMap_some_madeMap (t : Option GoMap) : madeMap (some (madeMap t)) = madeMap t := rfl

theorem mem_keys_some_setKey (m : GoMap) (k : String) (v : Bool) (n : String) :
    n ∈ keys (some (setKey m k v)) ↔ n = k ∨ n ∈ keys (some m) :=
  mem_keys_setKey m k v n

/-- Every call that returns satisfies `TraceInv`. -/
theorem traceInv_of_returns :
    ∀ (fuel : Nat) (c : Component Ctx) (t : Option GoMap) (res : Option GoMap × Option String),
      checkDependencies zero s context fuel c t = some res →
      TraceInv zero s context c t res := by
  apply walk_induction zero s context (TraceInv zero s context)
    (fun _ rest t res => LoopInv zero s context rest t res)
  · -- end of the list
    intro c t
    exact ⟨fun n hn => hn, fun n hn => Or.inl hn, fun e he => Or.inl he,
      fun _ d hd => absurd hd (List.not_mem_nil d)⟩
  · -- name already a key
    intro c d rest t _
    refine ⟨fun n hn => ?_, fun n hn => Or.inl ?_, fun e he => Or.inl he, fun h => ?_⟩
    · simpa only [keys_madeMap] using hn
    · simpa only [keys_madeMap] using hn
    · cases h
  · -- name not in the catalog
    intro c d rest t _ _
    refine ⟨fun n hn => ?_, fun n hn => Or.inl ?_, fun e he => Or.inl he, fun h => ?_⟩
    · simpa only [keys_madeMap] using hn
    · simpa only [keys_madeMap] using hn
    · cases h
  · -- nested call fails
    intro c d rest t q m' err _ _ hq _ hP
    obtain ⟨hP₁, hP₂, hP₃, _⟩ := hP
    refine ⟨fun n hn => hP₁ n (by simpa only [keys_madeMap] using hn), fun n hn => ?_,
      fun e he => ?_, fun h => ?_⟩
    · rcases hP₂ n hn with h | h
      · exact Or.inl (by simpa only [keys_madeMap] using h)
      · exact Or.inr ⟨d, List.mem_cons_self _ _, Or.inr ⟨q, hq, h⟩⟩
    · rcases hP₃ e he with h | ⟨h₁, h₂⟩
      · exact Or.inl h
      · exact Or.inr ⟨h₁, d, List.mem_cons_self _ _, Or.inr ⟨q, hq, h₂⟩⟩
    · cases h
  · -- nested call succeeds
    intro c d rest t q m' res _ _ hq _ hP hL
    obtain ⟨hP₁, hP₂, hP₃, hP₄⟩ := hP
    obtain ⟨hL₁, hL₂, hL₃, hL₄⟩ := hL
    have hsub : ∀ n ∈ keys (some m'), n ∈ keys res.1 := fun n hn =>
      hL₁ n ((mem_keys_some_setKey m' d _ n).2 (Or.inr hn))
    have hd : d ∈ keys res.1 := hL₁ d ((mem_keys_some_setKey m' d _ d).2 (Or.inl rfl))
    have hfd : (FindComponent zero s d).1 = true := by rw [hq]
    refine ⟨fun n hn => hsub n (hP₁ n (by simpa only [keys_madeMap] using hn)),
      fun n hn => ?_, fun e he => ?_, fun h d' hd' n hn => ?_⟩
    · rcases hL₂ n hn with h | ⟨d', hd', h⟩
      · rcases (mem_keys_some_setKey m' d _ n).1 h with h | h
        · exact Or.inr ⟨d, List.mem_cons_self _ _, Or.inl h⟩
        · rcases hP₂ n h with h | h
          · exact Or.inl (by simpa only [keys_madeMap] using h)
          · exact Or.inr ⟨d, List.mem_cons_self _ _, Or.inr ⟨q, hq, h⟩⟩
      · exact Or.inr ⟨d', List.mem_cons_of_mem _ hd', h⟩
    · rcases hL₃ e he with h | ⟨h₁, d', hd', h₂⟩
      · rcases mem_setKey m' d _ e h with h | h
        · refine Or.inr ⟨?_, d, List.mem_cons_self _ _, Or.inl (by rw [h])⟩
          rw [h, hq]
        · rcases hP₃ e h with h | ⟨h₁, h₂⟩
          · exact Or.inl h
          · exact Or.inr ⟨h₁, d, List.mem_cons_self _ _, Or.inr ⟨q, hq, h₂⟩⟩
      · exact Or.inr ⟨h₁, d', List.mem_cons_of_mem _ hd', h₂⟩
    · rcases List.mem_cons.1 hd' with hdd | hdd
      · subst hdd
        rcases hn with hn | ⟨q', hq', hr⟩
        · subst hn; exact ⟨hd, hfd⟩
        · have hqq : q' = q := by
            rw [hq] at hq'
            exact (Prod.mk.inj hq').2.symm
          subst hqq
          exact ⟨hsub n (hP₄ rfl n hr).1, (hP₄ rfl n hr).2⟩
      · exact hL₄ h d' hdd n hn
  · -- the call from its loop
    intro c t res hL
    obtain ⟨hL₁, hL₂, hL₃, hL₄⟩ := hL
    refine ⟨hL₁, fun n hn => ?_, fun e he => ?_, fun h n hn => ?_⟩
    · rcases hL₂ n hn with h | ⟨d, hd, h⟩
      · exact Or.inl h
      · exact Or.inr (Reach_of_Under zero s hd h)
    · rcases hL₃ e he with h | ⟨h₁, d, hd, h₂⟩
      · exact Or.inl h
      · exact Or.inr ⟨h₁, Reach_of_Under zero s hd h₂⟩
    · obtain ⟨d, hd, hu⟩ := Under_of_Reach zero s hn
      exact hL₄ h d hd n hu

/-! ## Termination on acyclic graphs -/

/-- A loop returns when each nested call it can make returns. -/
theorem checkLoop_returns
    (recurse : Component Ctx → Option GoMap → Option (Option GoMap × Option String))
    (c : Component Ctx) :
    ∀ (rest : List String),
      (∀ d ∈ rest, ∀ q, FindComponent zero s d = (true, q) →
        ∀ m, ∃ r, recurse q (some m) = some r) →
      ∀ t, ∃ res, checkLoop recurse zero s context c rest t = some res := by
  intro rest
  induction rest with
  | nil => intro _ t; exact ⟨_, rfl⟩
  | cons d rest ih =>
    intro hrec t
    rw [checkLoop_cons]
    split
    · exact ⟨_, rfl⟩
    · split
      · exact ⟨_, rfl⟩
      · rename_i hf
        have hq : FindComponent zero s d = (true, (FindComponent zero s d).2) := by
          rcases hq : FindComponent zero s d with ⟨found, q⟩
          rw [hq] at hf
          cases found
          · exact absurd rfl hf
          · rfl
        obtain ⟨r, hr⟩ := hrec d (List.mem_cons_self _ _) _ hq (madeMap t)
        rw [hr]
        rcases r with ⟨trace', _ | err⟩
        · exact ih (fun d' hd' => hrec d' (List.mem_cons_of_mem _ hd')) _
        · exact ⟨_, rfl⟩

/-- The names on a chain of nested calls are pairwise distinct catalog names
when the graph reachable from `c` is acyclic, so a call at the end of a chain
`path` returns within every depth bound exceeding the number of catalog
components not on the chain. -/
theorem checkDependencies_returns_on_path (c : Component Ctx) (hc : NoCycle zero s c) :
    ∀ (fuel : Nat) (path : List String) (q : Component Ctx),
      path.Nodup → (∀ a ∈ path, a ∈ (GetComponents s).map Component.Name) →
      (GetComponents s).length < path.length + fuel →
      (∀ n ∈ q.GetDependencies, Reach zero s c n) →
      (∀ a ∈ path, ∃ qa, FindComponent zero s a = (true, qa) ∧
        ∀ n ∈ q.GetDependencies, Reach zero s qa n) →
      ∀ t, ∃ res, checkDependencies zero s context fuel q t = some res := by
  intro fuel
  induction fuel with
  | zero =>
    intro path q hnd hsub hlen _ _ t
    have h := (List.subperm_of_subset hnd hsub).length_le
    rw [List.length_map] at h
    omega
  | succ k ih =>
    intro path q hnd hsub hlen hreach hpath t
    rw [checkDependencies]
    apply checkLoop_returns
    intro d hd q' hq' m
    have hdc : Reach zero s c d := hreach d hd
    have hnot : d ∉ path := by
      intro hmem
      obtain ⟨qa, hqa, hra⟩ := hpath d hmem
      exact hc d qa hdc hqa (hra d hd)
    have hname : d ∈ (GetComponents s).map Component.Name := by
      obtain ⟨hmem, hn⟩ := findIn_found zero d q' _ hq'
      exact List.mem_map.2 ⟨q', hmem, hn⟩
    apply ih (d :: path) q' (List.nodup_cons.2 ⟨hnot, hnd⟩)
    · intro a ha
      rcases List.mem_cons.1 ha with h | h
      · rw [h]; exact hname
      · exact hsub a h
    · simp only [List.length_cons]; omega
    · intro n hn
      exact Reach_trans zero s hdc hq' (Reach.direct hn)
    · intro a ha
      rcases List.mem_cons.1 ha with h | h
      · rw [h]; exact ⟨q', hq', fun n hn => Reach.direct hn⟩
      · obtain ⟨qa, hqa, hra⟩ := hpath a h
        exact ⟨qa, hqa, fun n hn => Reach_trans zero s (hra d hd) hq' (Reach.direct hn)⟩

/-- On an acyclic graph `checkDependencies(c, ctx, trace)` returns, with no
more nested calls in progress at a time than the catalog has components, the
call on `c` apart. -/
theorem checkDependencies_returns (c : Component Ctx) (hc : NoCycle zero s c)
    (t : Option GoMap) :
    ∃ res, checkDependencies zero s context ((GetComponents s).length + 1) c t = some res := by
  apply checkDependencies_returns_on_path zero s context c hc _ [] c List.nodup_nil
  · intro a ha; exact absurd ha (List.not_mem_nil a)
  · simp
  · intro n hn; exact Reach.direct hn
  · intro a ha; exact absurd ha (List.not_mem_nil a)

/-! ## No structural error on a tree -/

theorem Resolvable_step {c q : Component Ctx} {d : String} (hd : d ∈ c.GetDependencies)
    (hq : FindComponent zero s d = (true, q)) (h : Resolvable zero s c) :
    Resolvable zero s q :=
  fun n hn => h n (Reach.step hd hq hn)

theorem TreeShaped_step {c q : Component Ctx} {d : String} (hd : d ∈ c.GetDependencies)
    (hq : FindComponent zero s d = (true, q)) (h : TreeShaped zero s c) :
    TreeShaped zero s q :=
  ⟨h.2 d q (Reach.direct hd) hq, fun n q' hn hq' => h.2 n q' (Reach.step hd hq hn) hq'⟩

/-- A call that returns, on a fully resolvable tree none of whose names is a
key of the trace given, returns a nil error. -/
theorem no_error_on_tree :
    ∀ (fuel : Nat) (c : Component Ctx) (t : Option GoMap) (res : Option GoMap × Option String),
      checkDependencies zero s context fuel c t = some res →
      Resolvable zero s c → TreeShaped zero s c → (∀ n, Reach zero s c n → n ∉ keys t) →
      res.2 = none := by
  apply walk_induction zero s context
    (fun c t res => Resolvable zero s c → TreeShaped zero s c →
      (∀ n, Reach zero s c n → n ∉ keys t) → res.2 = none)
    (fun _ rest t res =>
      (∀ d ∈ rest, ∀ n, Under zero s d n → (FindComponent zero s n).1 = true ∧ n ∉ keys t) →
      Separated zero s rest →
      (∀ d ∈ rest, ∀ q, FindComponent zero s d = (true, q) →
        Resolvable zero s q ∧ TreeShaped zero s q) → res.2 = none)
  · intro c t _ _ _
    rfl
  · intro c d rest t hk h₁ _ _
    have hmem : d ∈ keys (some (madeMap t)) := (hasKey_iff _ _).1 hk
    rw [keys_madeMap] at hmem
    exact absurd hmem (h₁ d (List.mem_cons_self _ _) d (Or.inl rfl)).2
  · intro c d rest t _ hf h₁ _ _
    rw [(h₁ d (List.mem_cons_self _ _) d (Or.inl rfl)).1] at hf
    cases hf
  · intro c d rest t q m' err fuel _ hq _ hP h₁ _ h₃
    have hqq := h₃ d (List.mem_cons_self _ _) q hq
    have := hP hqq.1 hqq.2 (fun n hn => by
      rw [keys_madeMap]
      exact (h₁ d (List.mem_cons_self _ _) n (Or.inr ⟨q, hq, hn⟩)).2)
    cases this
  · intro c d rest t q m' res fuel _ hq hrun _ hL h₁ h₂ h₃
    obtain ⟨_, hup, _, _⟩ := traceInv_of_returns zero s context fuel q _ _ hrun
    have hsep := List.pairwise_cons.1 h₂
    apply hL
    · intro d' hd' n hn
      refine ⟨(h₁ d' (List.mem_cons_of_mem _ hd') n hn).1, fun hmem => ?_⟩
      have hund : Under zero s d n := by
        rcases (mem_keys_some_setKey m' d _ n).1 hmem with h | h
        · exact Or.inl h
        · rcases hup n h with h | h
          · rw [keys_madeMap] at h
            exact absurd h (h₁ d' (List.mem_cons_of_mem _ hd') n hn).2
          · exact Or.inr ⟨q, hq, h⟩
      exact hsep.1 d' hd' n hund hn
    · exact hsep.2
    · intro d' hd'
      exact h₃ d' (List.mem_cons_of_mem _ hd')
  · intro c t res hL hres htree hdisj
    apply hL
    · intro d hd n hn
      have hr := Reach_of_Under zero s hd hn
      exact ⟨hres n hr, hdisj n hr⟩
    · exact htree.1
    · intro d hd q hq
      exact ⟨Resolvable_step zero s hd hq hres, TreeShaped_step zero s hd hq htree⟩

/-! ## A nil error only on a tree -/

/-- A call that returns a nil error was given a trace without any of the
transitive dependency names as key, on a tree. -/
theorem fresh_tree_of_no_error :
    ∀ (fuel : Nat) (c : Component Ctx) (t : Option GoMap) (res : Option GoMap × Option String),
      checkDependencies zero s context fuel c t = some res → res.2 = none →
      (∀ n, Reach zero s c n → n ∉ keys t) ∧ TreeShaped zero s c := by
  apply walk_induction zero s context
    (fun c t res => res.2 = none →
      (∀ n, Reach zero s c n → n ∉ keys t) ∧ TreeShaped zero s c)
    (fun _ rest t res => res.2 = none →
      (∀ d ∈ rest, ∀ n, Under zero s d n → n ∉ keys t) ∧ Separated zero s rest ∧
      (∀ d ∈ rest, ∀ q, FindComponent zero s d = (true, q) → TreeShaped zero s q))
  · intro c t _
    exact ⟨fun d hd => absurd hd (List.not_mem_nil d), List.Pairwise.nil,
      fun d hd => absurd hd (List.not_mem_nil d)⟩
  · intro c d rest t _ h; cases h
  · intro c d rest t _ _ h; cases h
  · intro c d rest t q m' err fuel _ _ _ _ h; cases h
  · intro c d rest t q m' res fuel hk hq hrun hP hL hres
    obtain ⟨hfreshq, htreeq⟩ := hP rfl
    obtain ⟨hfresh, hsep, htrees⟩ := hL hres
    obtain ⟨hkeep, _, _, hlow⟩ := traceInv_of_returns zero s context fuel q _ _ hrun
    have hunder : ∀ n, Under zero s d n → n ∈ keys (some (setKey m' d (q.IsReady context))) := by
      intro n hn
      rcases hn with hn | ⟨q', hq', hr⟩
      · exact (mem_keys_some_setKey m' d _ n).2 (Or.inl hn)
      · have hqq : q' = q := by
          rw [hq] at hq'
          exact (Prod.mk.inj hq').2.symm
        subst hqq
        exact (mem_keys_some_setKey m' d _ n).2 (Or.inr (hlow rfl n hr).1)
    refine ⟨?_, List.pairwise_cons.2 ⟨fun d' hd' n hn hn' => hfresh d' hd' n hn' (hunder n hn),
      hsep⟩, ?_⟩
    · intro d' hd' n hn hmem
      rcases List.mem_cons.1 hd' with hdd | hdd
      · subst hdd
        rcases hn with hn | ⟨q', hq', hr⟩
        · subst hn
          have := (hasKey_false_iff _ _).1 hk
          rw [← keys_some, keys_madeMap] at this
          exact this hmem
        · have hqq : q' = q := by
            rw [hq] at hq'
            exact (Prod.mk.inj hq').2.symm
          subst hqq
          exact hfreshq n hr (by rw [keys_madeMap]; exact hmem)
      · refine hfresh d' hdd n hn ((mem_keys_some_setKey m' d _ n).2 (Or.inr ?_))
        exact hkeep n (by rw [keys_madeMap]; exact hmem)
    · intro d' hd' q' hq'
      rcases List.mem_cons.1 hd' with hdd | hdd
      · subst hdd
        have hqq : q' = q := by
          rw [hq] at hq'
          exact (Prod.mk.inj hq').2.symm
        subst hqq
        exact htreeq
      · exact htrees d' hdd q' hq'
  · intro c t res hL hres
    obtain ⟨hfresh, hsep, htrees⟩ := hL hres
    refine ⟨fun n hn => ?_, hsep, fun n q hn hq => ?_⟩
    · obtain ⟨d, hd, hu⟩ := Under_of_Reach zero s hn
      exact hfresh d hd n hu
    · obtain ⟨d, hd, hu⟩ := Under_of_Reach zero s hn
      rcases hu with hu | ⟨q', hq', hr⟩
      · subst hu
        exact (htrees n hd q hq).1
      · exact (htrees d hd q' hq').2 n q hr hq

/-- A call that returns a nil error has made, for every transitive
dependency name, a nested call on the component it resolves to that returned a
nil error. -/
theorem nested_call_of_no_error :
    ∀ (fuel : Nat) (c : Component Ctx) (t : Option GoMap) (res : Option GoMap × Option String),
      checkDependencies zero s context fuel c t = some res → res.2 = none →
      ∀ n q, Reach zero s c n → FindComponent zero s n = (true, q) →
        ∃ t₁ t₁', checkDependencies zero s context (fuel - 1) q t₁ = some (t₁', none) := by
  apply walk_induction_fuel zero s context
    (fun k c _ res => res.2 = none →
      ∀ n q, Reach zero s c n → FindComponent zero s n = (true, q) →
        ∃ t₁ t₁', checkDependencies zero s context (k - 1) q t₁ = some (t₁', none))
    (fun k _ rest _ res => res.2 = none →
      ∀ d ∈ rest, ∀ n q, Under zero s d n → FindComponent zero s n = (true, q) →
        ∃ t₁ t₁', checkDependencies zero s context k q t₁ = some (t₁', none))
  · intro k c t _ d hd
    exact absurd hd (List.not_mem_nil d)
  · intro k c d rest t _ h; cases h
  · intro k c d rest t _ _ h; cases h
  · intro k c d rest t q m' err _ _ _ _ h; cases h
  · intro k c d rest t q m' res _ hq hrun hP hL hres d' hd' n q' hn hq'
    rcases List.mem_cons.1 hd' with hdd | hdd
    · subst hdd
      rcases hn with hn | ⟨q₀, hq₀, hr⟩
      · subst hn
        have hqq : q' = q := by
          rw [hq] at hq'
          exact (Prod.mk.inj hq').2.symm
        subst hqq
        exact ⟨_, _, hrun⟩
      · have hqq : q₀ = q := by
          rw [hq] at hq₀
          exact (Prod.mk.inj hq₀).2.symm
        subst hqq
        obtain ⟨t₁, t₁', h₁⟩ := hP rfl n q' hr hq'
        exact ⟨t₁, t₁', checkDependencies_mono zero s context (Nat.sub_le k 1) _ _ _ h₁⟩
    · exact hL hres d' hdd n q' hn hq'
  · intro k c t res hL hres n q hn hq
    obtain ⟨d, hd, hu⟩ := Under_of_Reach zero s hn
    exact hL hres d hd n q hu hq

/-- No call on a component that is a transitive dependency of itself returns
a nil error. -/
theorem no_return_of_self_reach (q : Component Ctx) (n : String) (hn : Reach zero s q n)
    (hq : FindComponent zero s n = (true, q)) :
    ∀ (fuel : Nat) (t t' : Option GoMap),
      checkDependencies zero s context fuel q t ≠ some (t', none) := by
  intro fuel
  induction fuel with
  | zero => intro t t' h; simp [checkDependencies] at h
  | succ k ih =>
    intro t t' h
    obtain ⟨t₁, t₁', h₁⟩ := nested_call_of_no_error zero s context (k + 1) q t _ h rfl n q hn hq
    exact ih t₁ t₁' h₁

/-- The call `checkDependencies(c, ctx, nil)` returns a nil error only when the graph
reachable from `c` is acyclic, fully resolvable and a tree. -/
theorem tree_of_no_error (fuel : Nat) (c : Component Ctx) (trace : Option GoMap)
    (h : checkDependencies zero s context fuel c none = some (trace, none)) :
    NoCycle zero s c ∧ Resolvable zero s c ∧ TreeShaped zero s c := by
  refine ⟨fun n q hn hq hr => ?_, fun n hn => ?_, ?_⟩
  · obtain ⟨t₁, t₁', h₁⟩ := nested_call_of_no_error zero s context fuel c none _ h rfl n q hn hq
    exact no_return_of_self_reach zero s context q n hr hq _ t₁ t₁' h₁
  · exact ((traceInv_of_returns zero s context fuel c none _ h).2.2.2 rfl n hn).2
  · exact (fresh_tree_of_no_error zero s context fuel c none _ h rfl).2

end Walk

/-! ## Readiness does not steer the walk -/

theorem hasKey_congr {m m' : GoMap} (h : m.map Prod.fst = m'.map Prod.fst) (k : String) :
    hasKey m k = hasKey m' k := by
  cases h₁ : hasKey m k
  · rw [hasKey_false_iff, h, ← hasKey_false_iff] at h₁
    exact h₁.symm
  · rw [hasKey_iff, h, ← hasKey_iff] at h₁
    exact h₁.symm

theorem keys_setKey_congr {m m' : GoMap} (h : m.map Prod.fst = m'.map Prod.fst) (k : String)
    (v v' : Bool) : keys (some (setKey m k v)) = keys (some (setKey m' k v')) := by
  simp only [keys, keys_setKey, h]

/-- Lookups in two catalogs of the same shape agree on whether the name is
found, and find components of the same shape. -/
theorem findIn_congr (zero zero' : Component Ctx) (n : String) :
    ∀ (l l' : List (Component Ctx)), List.Forall₂ SameShape l l' →
      (findIn zero n l).1 = (findIn zero' n l').1 ∧
      ((findIn zero n l).1 = true → SameShape (findIn zero n l).2 (findIn zero' n l').2) := by
  intro l l' h
  induction h with
  | nil => exact ⟨rfl, fun h => by simp [findIn] at h⟩
  | @cons a b l₁ l₂ hab _ ih =>
    by_cases ha : a.Name = n
    · have hb : b.Name = n := hab.1 ▸ ha
      simp only [findIn, ha, hb, if_true, true_and]
      exact fun _ => hab
    · have hb : ¬ b.Name = n := hab.1 ▸ ha
      simp only [findIn, ha, hb, if_false]
      exact ih

section Shape

variable (zero zero' : Component Ctx) (s s' : State Ctx) (context context' : Ctx)

/-- Two loops over the same names, in catalogs of the same shape, on traces
with the same keys, have the same structural outcome, provided their nested
calls do and return non-nil maps. -/
theorem checkLoop_outcome_congr
    (hcat : List.Forall₂ SameShape (GetComponents s) (GetComponents s'))
    (r r' : Component Ctx → Option GoMap → Option (Option GoMap × Option String))
    (hr : ∀ q q' m m', SameShape q q' → keys (some m) = keys (some m') →
      (r q (some m)).map outcome = (r' q' (some m')).map outcome)
    (hsome : ∀ q m res, r q (some m) = some res → ∃ m', res.1 = some m')
    (hsome' : ∀ q m res, r' q (some m) = some res → ∃ m', res.1 = some m')
    (c c' : Component Ctx) (hname : c.Name = c'.Name) :
    ∀ (deps : List String) (t t' : Option GoMap), keys t = keys t' →
      (checkLoop r zero s context c deps t).map outcome
        = (checkLoop r' zero' s' context' c' deps t').map outcome := by
  intro deps
  induction deps with
  | nil =>
    intro t t' hk
    simp only [checkLoop, Option.map_some', outcome, hk]
  | cons d rest ih =>
    intro t t' hk
    have hkm : (madeMap t).map Prod.fst = (madeMap t').map Prod.fst := by
      have := hk
      rw [← keys_madeMap t, ← keys_madeMap t'] at this
      exact this
    have hfind : (FindComponent zero s d).1 = (FindComponent zero' s' d).1 ∧
        ((FindComponent zero s d).1 = true →
          SameShape (FindComponent zero s d).2 (FindComponent zero' s' d).2) :=
      findIn_congr zero zero' d _ _ hcat
    obtain ⟨hfound, hshape⟩ := hfind
    rw [checkLoop_cons, checkLoop_cons, ← hasKey_congr hkm d, ← hname, ← hfound]
    split
    · simp only [Option.map_some', outcome, keys, hkm]
    · split
      · simp only [Option.map_some', outcome, keys, hkm]
      · rename_i hf
        have hf' : (FindComponent zero s d).1 = true := by
          simpa using hf
        have hnested := hr _ _ (madeMap t) (madeMap t') (hshape hf') hkm
        rcases h₁ : r (FindComponent zero s d).2 (some (madeMap t)) with _ | res₁ <;>
        rcases h₂ : r' (FindComponent zero' s' d).2 (some (madeMap t')) with _ | res₂
        · rfl
        · rw [h₁, h₂] at hnested; simp at hnested
        · rw [h₁, h₂] at hnested; simp at hnested
        · rw [h₁, h₂] at hnested
          simp only [Option.map_some', Option.some.injEq, outcome, Prod.mk.injEq] at hnested
          obtain ⟨m₁, hm₁⟩ := hsome _ _ _ h₁
          obtain ⟨m₂, hm₂⟩ := hsome' _ _ _ h₂
          obtain ⟨t₁, e₁⟩ := res₁
          obtain ⟨t₂, e₂⟩ := res₂
          simp only at hm₁ hm₂ hnested
          subst hm₁ hm₂
          obtain ⟨hkeys, herr⟩ := hnested
          subst herr
          cases e₁ with
          | some err => simp only [Option.map_some', outcome, hkeys]
          | none =>
            simp only [Option.getD_some]
            exact ih _ _ (keys_setKey_congr hkeys d _ _)

/-- The structural outcome of `checkDependencies` (whether it returns, the
error, the keys of the trace) is the same in two catalogs of the same shape,
whatever the readiness of their components and the contexts. -/
theorem checkDependencies_outcome_congr
    (hcat : List.Forall₂ SameShape (GetComponents s) (GetComponents s')) :
    ∀ (fuel : Nat) (c c' : Component Ctx) (t t' : Option GoMap),
      SameShape c c' → keys t = keys t' →
      (checkDependencies zero s context fuel c t).map outcome
        = (checkDependencies zero' s' context' fuel c' t').map outcome := by
  intro fuel
  induction fuel with
  | zero => intro c c' t t' _ _; rfl
  | succ n ih =>
    intro c c' t t' hc hk
    rw [checkDependencies, checkDependencies, ← hc.2]
    exact checkLoop_outcome_congr zero zero' s s' context context' hcat _ _
      (fun q q' m m' hq hm => ih q q' (some m) (some m') hq hm)
      (checkDependencies_trace_some zero s context n)
      (checkDependencies_trace_some zero' s' context' n)
      c c' hc.1 _ t t' hk

end Shape


/-! ## The graphs of the concrete catalogs -/

theorem Reach_inv (zero : Component Ctx) (s : State Ctx) {c : Component Ctx} {n : String}
    (h : Reach zero s c n) :
    n ∈ c.GetDependencies ∨
      ∃ d ∈ c.GetDependencies, ∃ q, FindComponent zero s d = (true, q) ∧ Reach zero s q n := by
  cases h with
  | direct hd => exact Or.inl hd
  | step hd hq hr => exact Or.inr ⟨_, hd, _, hq, hr⟩

/-- A component without dependencies has no transitive dependency name. -/
theorem not_Reach_of_nil (zero : Component Ctx) (s : State Ctx) {c : Component Ctx}
    (hc : c.GetDependencies = []) (n : String) : ¬ Reach zero s c n := by
  intro h
  rcases Reach_inv zero s h with h | ⟨d, hd, _⟩
  · rw [hc] at h; exact absurd h (List.not_mem_nil n)
  · rw [hc] at hd; exact absurd hd (List.not_mem_nil d)

/-- A dependency list with at most one entry is separated. -/
theorem Separated_nil (zero : Component Ctx) (s : State Ctx) : Separated zero s [] :=
  List.Pairwise.nil

theorem Separated_singleton (zero : Component Ctx) (s : State Ctx) (d : String) :
    Separated zero s [d] :=
  List.pairwise_singleton _ d

theorem diamond_Reach_B {n : String}
    (h : Reach zeroComp diamondCatalog (comp "B" ["D"] true) n) : n = "D" := by
  rcases Reach_inv _ _ h with h | ⟨d, hd, q, hq, hr⟩
  · simpa [comp] using h
  · simp only [comp, List.mem_singleton] at hd
    subst hd
    simp [FindComponent, GetComponents, findIn, diamondCatalog, comp] at hq
    subst hq
    exact absurd hr (not_Reach_of_nil _ _ rfl n)

theorem diamond_Reach_C {n : String}
    (h : Reach zeroComp diamondCatalog (comp "C" ["D"] true) n) : n = "D" := by
  rcases Reach_inv _ _ h with h | ⟨d, hd, q, hq, hr⟩
  · simpa [comp] using h
  · simp only [comp, List.mem_singleton] at hd
    subst hd
    simp [FindComponent, GetComponents, findIn, diamondCatalog, comp] at hq
    subst hq
    exact absurd hr (not_Reach_of_nil _ _ rfl n)

theorem diamond_Reach_A {n : String}
    (h : Reach zeroComp diamondCatalog (comp "A" ["B", "C"] true) n) :
    n = "B" ∨ n = "C" ∨ n = "D" := by
  rcases Reach_inv _ _ h with h | ⟨d, hd, q, hq, hr⟩
  · simp only [comp, List.mem_cons, List.mem_singleton, List.not_mem_nil, or_false] at h
    rcases h with h | h
    · exact Or.inl h
    · exact Or.inr (Or.inl h)
  · simp only [comp, List.mem_cons, List.mem_singleton, List.not_mem_nil, or_false] at hd
    rcases hd with hd | hd
    · subst hd
      simp [FindComponent, GetComponents, findIn, diamondCatalog, comp] at hq
      subst hq
      exact Or.inr (Or.inr (diamond_Reach_B hr))
    · subst hd
      simp [FindComponent, GetComponents, findIn, diamondCatalog, comp] at hq
      subst hq
      exact Or.inr (Or.inr (diamond_Reach_C hr))

/-- The diamond under A has no cycle. -/
theorem diamond_NoCycle : NoCycle zeroComp diamondCatalog (comp "A" ["B", "C"] true) := by
  intro n q hn hq hr
  rcases diamond_Reach_A hn with h | h | h <;> subst h
  · simp [FindComponent, GetComponents, findIn, diamondCatalog, comp] at hq
    subst hq
    exact absurd (diamond_Reach_B hr) (by decide)
  · simp [FindComponent, GetComponents, findIn, diamondCatalog, comp] at hq
    subst hq
    exact absurd (diamond_Reach_C hr) (by decide)
  · simp [FindComponent, GetComponents, findIn, diamondCatalog, comp] at hq
    subst hq
    exact not_Reach_of_nil _ _ rfl _ hr

/-- Every name of the diamond under A resolves. -/
theorem diamond_Resolvable : Resolvable zeroComp diamondCatalog (comp "A" ["B", "C"] true) := by
  intro n hn
  rcases diamond_Reach_A hn with h | h | h <;> subst h <;> rfl

theorem tree_Reach_B {n : String}
    (h : Reach zeroComp treeCatalog (comp "B" ["D"] true) n) : n = "D" := by
  rcases Reach_inv _ _ h with h | ⟨d, hd, q, hq, hr⟩
  · simpa [comp] using h
  · simp only [comp, List.mem_singleton] at hd
    subst hd
    simp [FindComponent, GetComponents, findIn, treeCatalog, comp] at hq
    subst hq
    exact absurd hr (not_Reach_of_nil _ _ rfl n)

theorem tree_Reach_A {n : String}
    (h : Reach zeroComp treeCatalog (comp "A" ["B", "C"] true) n) :
    n = "B" ∨ n = "C" ∨ n = "D" := by
  rcases Reach_inv _ _ h with h | ⟨d, hd, q, hq, hr⟩
  · simp only [comp, List.mem_cons, List.mem_singleton, List.not_mem_nil, or_false] at h
    rcases h with h | h
    · exact Or.inl h
    · exact Or.inr (Or.inl h)
  · simp only [comp, List.mem_cons, List.mem_singleton, List.not_mem_nil, or_false] at hd
    rcases hd with hd | hd
    · subst hd
      simp [FindComponent, GetComponents, findIn, treeCatalog, comp] at hq
      subst hq
      exact Or.inr (Or.inr (tree_Reach_B hr))
    · subst hd
      simp [FindComponent, GetComponents, findIn, treeCatalog, comp] at hq
      subst hq
      exact absurd hr (not_Reach_of_nil _ _ rfl n)

theorem tree_NoCycle : NoCycle zeroComp treeCatalog (comp "A" ["B", "C"] true) := by
  intro n q hn hq hr
  rcases tree_Reach_A hn with h | h | h <;> subst h
  · simp [FindComponent, GetComponents, findIn, treeCatalog, comp] at hq
    subst hq
    exact absurd (tree_Reach_B hr) (by decide)
  · simp [FindComponent, GetComponents, findIn, treeCatalog, comp] at hq
    subst hq
    exact not_Reach_of_nil _ _ rfl _ hr
  · simp [FindComponent, GetComponents, findIn, treeCatalog, comp] at hq
    subst hq
    exact not_Reach_of_nil _ _ rfl _ hr

theorem tree_Resolvable : Resolvable zeroComp treeCatalog (comp "A" ["B", "C"] true) := by
  intro n hn
  rcases tree_Reach_A hn with h | h | h <;> subst h <;> rfl

theorem tree_TreeShaped : TreeShaped zeroComp treeCatalog (comp "A" ["B", "C"] true) := by
  constructor
  · refine List.pairwise_cons.2 ⟨?_, Separated_singleton _ _ _⟩
    intro d hd n hB hC
    simp only [List.mem_singleton] at hd
    subst hd
    have hnC : n = "C" := by
      rcases hC with h | ⟨q, hq, hr⟩
      · exact h
      · simp [FindComponent, GetComponents, findIn, treeCatalog, comp] at hq
        subst hq
        exact absurd hr (not_Reach_of_nil _ _ rfl n)
    subst hnC
    rcases hB with h | ⟨q, hq, hr⟩
    · exact absurd h (by decide)
    · simp [FindComponent, GetComponents, findIn, treeCatalog, comp] at hq
      subst hq
      exact absurd (tree_Reach_B hr) (by decide)
  · intro n q hn hq
    rcases tree_Reach_A hn with h | h | h <;> subst h <;>
      simp [FindComponent, GetComponents, findIn, treeCatalog, comp] at hq <;> subst hq
    · exact Separated_singleton _ _ _
    · exact Separated_nil _ _
    · exact Separated_nil _ _

/-! ## C1: walks of acyclic, fully resolvable graphs -/

/-- C1 (as stated, refuted): the diamond {D(deps:[]), B(deps:[D]),
C(deps:[D]), A(deps:[B,C])} is acyclic and fully resolvable under A, yet
`checkDependencies(A, ctx, nil)` returns the dependency-cycle error for C and
D, with the trace {D, B}; under no depth bound does it return a nil error. -/
theorem checkDependencies_diamond_not_ok :
    NoCycle zeroComp diamondCatalog (comp "A" ["B", "C"] true) ∧
    Resolvable zeroComp diamondCatalog (comp "A" ["B", "C"] true) ∧
    checkDependencies zeroComp diamondCatalog () 3 (comp "A" ["B", "C"] true) none
      = some (some [("D", true), ("B", true)], some (cycleError "C" "D")) ∧
    ¬ ∃ fuel trace, checkDependencies zeroComp diamondCatalog () fuel
        (comp "A" ["B", "C"] true) none = some (trace, none) := by
  have h3 : checkDependencies zeroComp diamondCatalog () 3 (comp "A" ["B", "C"] true) none
      = some (some [("D", true), ("B", true)], some (cycleError "C" "D")) := by decide
  refine ⟨diamond_NoCycle, diamond_Resolvable, h3, ?_⟩
  rintro ⟨fuel, trace, h⟩
  have h₁ := checkDependencies_mono zeroComp diamondCatalog () (Nat.le_max_left fuel 3) _ _ _ h
  have h₂ := checkDependencies_mono zeroComp diamondCatalog () (Nat.le_max_right fuel 3) _ _ _ h3
  rw [h₁] at h₂
  simp at h₂

/-- C1 (amended): when the dependency graph reachable from `c` is acyclic,
every dependency name in it resolves through `FindComponent`, and no two
entries of one dependency list in it lead to a common name (no name listed
twice, no diamond), `checkDependencies(c, ctx, nil)` returns, within every
depth bound above the number of catalog components, a nil error and a trace
whose keys are exactly the transitive dependency names of `c`. -/
theorem checkDependencies_tree_ok (zero : Component Ctx) (s : State Ctx) (context : Ctx)
    (c : Component Ctx) (hacyclic : NoCycle zero s c) (hresolves : Resolvable zero s c)
    (htree : TreeShaped zero s c) :
    ∃ trace,
      (∀ fuel, (GetComponents s).length + 1 ≤ fuel →
        checkDependencies zero s context fuel c none = some (trace, none)) ∧
      ∀ n, n ∈ keys trace ↔ Reach zero s c n := by
  obtain ⟨⟨trace, err⟩, hrun⟩ := checkDependencies_returns zero s context c hacyclic none
  have herr : err = none :=
    no_error_on_tree zero s context _ c none _ hrun hresolves htree
      (fun n _ hn => absurd hn (List.not_mem_nil n))
  subst herr
  obtain ⟨_, hup, _, hlow⟩ := traceInv_of_returns zero s context _ c none _ hrun
  refine ⟨trace, fun fuel hfuel => checkDependencies_mono zero s context hfuel _ _ _ hrun,
    fun n => ⟨fun hn => ?_, fun hn => (hlow rfl n hn).1⟩⟩
  rcases hup n hn with h | h
  · exact absurd h (List.not_mem_nil n)
  · exact h

/-- C1 (amended) at a concrete input: the tree {D(deps:[]), B(deps:[D]),
C(deps:[]), A(deps:[B,C])} under A. -/
theorem checkDependencies_tree_ok_witness :
    NoCycle zeroComp treeCatalog (comp "A" ["B", "C"] true) ∧
    Resolvable zeroComp treeCatalog (comp "A" ["B", "C"] true) ∧
    TreeShaped zeroComp treeCatalog (comp "A" ["B", "C"] true) ∧
    ∃ trace,
      (∀ fuel, (GetComponents treeCatalog).length + 1 ≤ fuel →
        checkDependencies zeroComp treeCatalog () fuel (comp "A" ["B", "C"] true) none
          = some (trace, none)) ∧
      ∀ n, n ∈ keys trace ↔ Reach zeroComp treeCatalog (comp "A" ["B", "C"] true) n :=
  ⟨tree_NoCycle, tree_Resolvable, tree_TreeShaped,
    checkDependencies_tree_ok zeroComp treeCatalog () (comp "A" ["B", "C"] true)
      tree_NoCycle tree_Resolvable tree_TreeShaped⟩

/-! ## Lookup by name -/

/-- C10: `FindComponent(n)` reports found exactly when some catalog component
has the name `n`; it then returns the first such component in catalog order,
whose name is exactly `n`; otherwise it returns found=false with the
placeholder.  A name that only is a proper prefix of a catalog name ("ist" for
"istio") is not found. -/
theorem FindComponent_exact_first_match (zero : Component Ctx) (s : State Ctx) (n : String) :
    ((FindComponent zero s n).1 = true ↔ ∃ comp ∈ GetComponents s, comp.Name = n) ∧
    (∀ pre comp post, GetComponents s = pre ++ comp :: post → (∀ p ∈ pre, p.Name ≠ n) →
      comp.Name = n → FindComponent zero s n = (true, comp)) ∧
    ((FindComponent zero s n).1 = true → (FindComponent zero s n).2.Name = n) ∧
    ((∀ comp ∈ GetComponents s, comp.Name ≠ n) → FindComponent zero s n = (false, zero)) ∧
    FindComponent zeroComp ⟨fun _ => [comp "istio" [] true]⟩ "ist" = (false, zeroComp) := by
  refine ⟨findIn_fst zero n _, ?_, ?_, findIn_absent zero n _, rfl⟩
  · intro pre comp post hcat hpre hn
    rw [FindComponent, hcat]
    exact findIn_first zero n comp post hn pre hpre
  · intro h
    rcases hf : FindComponent zero s n with ⟨found, q⟩
    rw [hf] at h
    simp only at h
    subst h
    exact (findIn_found zero n q _ hf).2

/-- C10 at a concrete catalog: with two components named "B", `FindComponent`
returns the first of them, and "Z" is absent. -/
theorem FindComponent_exact_first_match_witness :
    FindComponent zeroComp ⟨fun _ => [comp "A" [] true, comp "B" ["A"] true, comp "B" [] false]⟩
        "B" = (true, comp "B" ["A"] true) ∧
    FindComponent zeroComp ⟨fun _ => [comp "A" [] true, comp "B" ["A"] true, comp "B" [] false]⟩
        "Z" = (false, zeroComp) :=
  ⟨(FindComponent_exact_first_match zeroComp
      ⟨fun _ => [comp "A" [] true, comp "B" ["A"] true, comp "B" [] false]⟩ "B").2.1
      [comp "A" [] true] (comp "B" ["A"] true) [comp "B" [] false] rfl
      (by intro p hp; simp at hp; subst hp; decide) rfl,
   (FindComponent_exact_first_match zeroComp
      ⟨fun _ => [comp "A" [] true, comp "B" ["A"] true, comp "B" [] false]⟩ "Z").2.2.2.1
      (by intro p hp; simp [GetComponents] at hp; rcases hp with h | h | h <;> subst h <;> decide)⟩

/-! ## The readiness gate on a finished walk -/

/-- C8: a component without dependencies passes the gate: whatever the
catalog and the readiness of its components, `checkDependencies(c, ctx, nil)`
returns the (empty) nil trace with a nil error, within the call itself, and
`ComponentDependenciesMet(c, ctx)` returns true. -/
theorem ComponentDependenciesMet_no_dependencies (zero : Component Ctx) (s : State Ctx)
    (context : Ctx) (fuel : Nat) (c : Component Ctx) (h : c.GetDependencies = []) :
    checkDependencies zero s context (fuel + 1) c none = some (none, none) ∧
    len (none : Option GoMap) = 0 ∧
    ComponentDependenciesMet zero s (fuel + 1) c context = some true := by
  have h₁ : checkDependencies zero s context (fuel + 1) c none = some (none, none) := by
    rw [checkDependencies, h]; rfl
  exact ⟨h₁, rfl, by simp [ComponentDependenciesMet, h₁, len]⟩

/-- C8 at a concrete input: component D without dependencies, not ready
itself, in the diamond catalog. -/
theorem ComponentDependenciesMet_no_dependencies_witness :
    (comp "D" [] false).GetDependencies = [] ∧
    (checkDependencies zeroComp diamondCatalog () 1 (comp "D" [] false) none = some (none, none) ∧
     len (none : Option GoMap) = 0 ∧
     ComponentDependenciesMet zeroComp diamondCatalog 1 (comp "D" [] false) () = some true) :=
  ⟨rfl, ComponentDependenciesMet_no_dependencies zeroComp diamondCatalog () 0
    (comp "D" [] false) rfl⟩

/-- C7: when `checkDependencies(c, ctx, nil)` returns a nil error and a
non-empty trace, `ComponentDependenciesMet(c, ctx)` returns, and it returns
true exactly when every value of that trace is true. -/
theorem ComponentDependenciesMet_iff_all_true (zero : Component Ctx) (s : State Ctx)
    (context : Ctx) (fuel : Nat) (c : Component Ctx) (trace : Option GoMap)
    (h : checkDependencies zero s context fuel c none = some (trace, none))
    (hlen : len trace ≠ 0) :
    ∃ b, ComponentDependenciesMet zero s fuel c context = some b ∧
      (b = true ↔ ∀ value ∈ values trace, value = true) := by
  refine ⟨(values trace).all (fun value => value), ?_, ?_⟩
  · simp [ComponentDependenciesMet, h, hlen]
  · simp [List.all_eq_true]

/-- C7 at a concrete input: App over Ingress (ready) and Mesh (not ready). -/
theorem ComponentDependenciesMet_iff_all_true_witness :
    checkDependencies zeroComp appCatalog () 2 (comp "App" ["Ingress", "Mesh"] true) none
      = some (some [("Ingress", true), ("Mesh", false)], none) ∧
    len (some [("Ingress", true), ("Mesh", false)]) ≠ 0 ∧
    ∃ b, ComponentDependenciesMet zeroComp appCatalog 2 (comp "App" ["Ingress", "Mesh"] true) ()
        = some b ∧
      (b = true ↔ ∀ value ∈ values (some [("Ingress", true), ("Mesh", false)]), value = true) :=
  ⟨rfl, by decide,
    ComponentDependenciesMet_iff_all_true zeroComp appCatalog () 2
      (comp "App" ["Ingress", "Mesh"] true) (some [("Ingress", true), ("Mesh", false)]) rfl
      (by decide)⟩

/-- C3: when `checkDependencies(c, ctx, nil)` returns a non-nil error,
`ComponentDependenciesMet(c, ctx)` returns false, and it returns false as well
for every other readiness of the components (a catalog and component of the
same shape, any context). -/
theorem ComponentDependenciesMet_false_of_error (zero : Component Ctx) (s : State Ctx)
    (context : Ctx) (fuel : Nat) (c : Component Ctx) (trace : Option GoMap) (err : String)
    (h : checkDependencies zero s context fuel c none = some (trace, some err)) :
    ComponentDependenciesMet zero s fuel c context = some false ∧
    ∀ (zero' : Component Ctx) (s' : State Ctx) (c' : Component Ctx) (context' : Ctx),
      List.Forall₂ SameShape (GetComponents s) (GetComponents s') → SameShape c c' →
      ComponentDependenciesMet zero' s' fuel c' context' = some false := by
  refine ⟨by simp [ComponentDependenciesMet, h], ?_⟩
  intro zero' s' c' context' hcat hc
  have hcongr := checkDependencies_outcome_congr zero zero' s s' context context' hcat fuel
    c c' none none hc rfl
  rw [h] at hcongr
  rcases h' : checkDependencies zero' s' context' fuel c' none with _ | ⟨trace', err'⟩
  · rw [h'] at hcongr; simp at hcongr
  · rw [h'] at hcongr
    simp only [Option.map_some', Option.some.injEq, outcome, Prod.mk.injEq] at hcongr
    obtain ⟨_, rfl⟩ := hcongr
    simp [ComponentDependenciesMet, h']

/-- C3 at a concrete input: P declares Z, which the catalog lacks. -/
theorem ComponentDependenciesMet_false_of_error_witness :
    checkDependencies zeroComp appCatalog () 1 (comp "P" ["Z"] true) none
      = some (some [], some (notFoundError "P" "Z")) ∧
    ComponentDependenciesMet zeroComp appCatalog 1 (comp "P" ["Z"] true) () = some false :=
  ⟨rfl, (ComponentDependenciesMet_false_of_error zeroComp appCatalog () 1 (comp "P" ["Z"] true)
    (some []) (notFoundError "P" "Z") rfl).1⟩

/-! ## Structural errors -/

/-- The loop of a call, by the call of the component with the same name and
the names of the loop as its dependency list. -/
theorem checkLoop_eq_checkDependencies (zero : Component Ctx) (s : State Ctx) (context : Ctx)
    (fuel : Nat) (c : Component Ctx) (deps : List String) (t : Option GoMap) :
    checkLoop (checkDependencies zero s context fuel) zero s context c deps t
      = checkDependencies zero s context (fuel + 1) ⟨c.Name, deps, c.IsReady⟩ t := by
  rw [checkDependencies]
  exact checkLoop_congr_name zero s context _ c ⟨c.Name, deps, c.IsReady⟩ rfl deps t

/-- C6: a dependency name that already is a key of the trace ends the walk
with a dependency-cycle error naming the component whose list is iterated and
the name.  (1) An iteration on such a name returns this error and the trace
as it is.  (2) So does the call whose loop reaches such a name `d` after the
entries `pre` before it ended without error.  (3) A call returns the error of
a nested call unchanged, so the error reaches the outermost call.  (4) In the
diamond {D(deps:[]), B(deps:[D]), C(deps:[D]), A(deps:[B,C])},
`checkDependencies(A, ctx, nil)` returns the cycle error for C and D although
D had been resolved under B. -/
theorem revisit_returns_cycle_error (zero : Component Ctx) (s : State Ctx) (context : Ctx) :
    (∀ recurse c d rest m, hasKey m d = true →
      checkLoop recurse zero s context c (d :: rest) (some m)
        = some (some m, some (cycleError c.Name d))) ∧
    (∀ fuel c pre d post t m, c.GetDependencies = pre ++ d :: post →
      checkLoop (checkDependencies zero s context fuel) zero s context c pre t
        = some (some m, none) →
      hasKey m d = true →
      checkDependencies zero s context (fuel + 1) c t
        = some (some m, some (cycleError c.Name d))) ∧
    (∀ fuel c pre d post t m q res err, c.GetDependencies = pre ++ d :: post →
      checkLoop (checkDependencies zero s context fuel) zero s context c pre t
        = some (some m, none) →
      hasKey m d = false → FindComponent zero s d = (true, q) →
      checkDependencies zero s context fuel q (some m) = some (res, some err) →
      checkDependencies zero s context (fuel + 1) c t = some (res, some err)) ∧
    (∀ fuel, 3 ≤ fuel →
      checkDependencies zeroComp diamondCatalog () fuel (comp "A" ["B", "C"] true) none
        = some (some [("D", true), ("B", true)], some (cycleError "C" "D"))) := by
  refine ⟨?_, ?_, ?_, ?_⟩
  · intro recurse c d rest m hk
    rw [checkLoop_cons]
    simp only [madeMap, hk, if_true]
  · intro fuel c pre d post t m hdeps hpre hk
    rw [checkDependencies, hdeps, checkLoop_append, hpre]
    simp only [checkLoop_cons, madeMap, hk, if_true]
  · intro fuel c pre d post t m q res err hdeps hpre hk hq hnested
    rw [checkDependencies, hdeps, checkLoop_append, hpre]
    simp only [checkLoop_cons, madeMap, hk, hq, hnested]
    rfl
  · intro fuel hfuel
    exact checkDependencies_mono zeroComp diamondCatalog () hfuel _ _ _ (by decide)

/-- No component of the App catalog is named Z. -/
theorem appCatalog_no_Z : ∀ q ∈ GetComponents appCatalog, q.Name ≠ "Z" := by
  intro q hq
  simp only [GetComponents, appCatalog, List.mem_cons, List.mem_singleton,
    List.not_mem_nil, or_false] at hq
  rcases hq with h | h | h <;> subst h <;> decide

/-- C5 (as stated, refuted): P declares Ingress twice and then Z; no
component of the catalog is named Z, yet `checkDependencies(P, ctx, nil)`
returns the dependency-cycle error for P and Ingress; under no depth bound
does it return the error that Z is not found for P. -/
theorem checkDependencies_missing_not_reported :
    (∀ q ∈ GetComponents appCatalog, q.Name ≠ "Z") ∧
    "Z" ∈ (comp "P" ["Ingress", "Ingress", "Z"] true).GetDependencies ∧
    checkDependencies zeroComp appCatalog () 2 (comp "P" ["Ingress", "Ingress", "Z"] true) none
      = some (some [("Ingress", true)], some (cycleError "P" "Ingress")) ∧
    ¬ ∃ fuel trace, checkDependencies zeroComp appCatalog () fuel
        (comp "P" ["Ingress", "Ingress", "Z"] true) none
          = some (trace, some (notFoundError "P" "Z")) := by
  have h2 : checkDependencies zeroComp appCatalog () 2
      (comp "P" ["Ingress", "Ingress", "Z"] true) none
      = some (some [("Ingress", true)], some (cycleError "P" "Ingress")) := by decide
  refine ⟨appCatalog_no_Z, by decide, h2, ?_⟩
  · rintro ⟨fuel, trace, h⟩
    have h₁ := checkDependencies_mono zeroComp appCatalog () (Nat.le_max_left fuel 2) _ _ _ h
    have h₂ := checkDependencies_mono zeroComp appCatalog () (Nat.le_max_right fuel 2) _ _ _ h2
    rw [h₁] at h₂
    simp only [Option.some.injEq, Prod.mk.injEq] at h₂
    exact absurd h₂.2 (by decide)

/-- C5 (amended): when the dependency list of `c` holds a name `z` that no
catalog component bears, and the loop over the entries before `z` ends without
error, `checkDependencies(c, ctx, nil)` returns the "declared dependency not
found" error naming `c` and `z`, with the trace the loop had reached. -/
theorem checkDependencies_missing_dependency (zero : Component Ctx) (s : State Ctx)
    (context : Ctx) (fuel : Nat) (c : Component Ctx) (pre : List String) (z : String)
    (post : List String) (t : Option GoMap)
    (hdeps : c.GetDependencies = pre ++ z :: post)
    (habsent : ∀ q ∈ GetComponents s, q.Name ≠ z)
    (hpre : checkLoop (checkDependencies zero s context fuel) zero s context c pre none
      = some (t, none)) :
    checkDependencies zero s context (fuel + 1) c none
      = some (some (madeMap t), some (notFoundError c.Name z)) := by
  have hnot : (FindComponent zero s z).1 = false := by
    rw [FindComponent, findIn_absent zero z _ habsent]
  have hkey : hasKey (madeMap t) z = false := by
    rw [hasKey_false_iff]
    intro hmem
    have hrun := hpre
    rw [checkLoop_eq_checkDependencies] at hrun
    obtain ⟨_, hup, _, hlow⟩ := traceInv_of_returns zero s context _ _ _ _ hrun
    have hz : z ∈ keys t := by rw [← keys_madeMap]; exact hmem
    rcases hup z hz with h | h
    · exact absurd h (List.not_mem_nil z)
    · have := (hlow rfl z h).2
      rw [hnot] at this
      cases this
  rw [checkDependencies, hdeps, checkLoop_append, hpre]
  simp only [checkLoop_cons, hkey, hnot, if_true, Bool.false_eq_true, if_false]

/-- C5 (amended) at concrete inputs: P declares only Z, which the catalog
lacks; and P declares Ingress and then Z, where the loop over the entry
before Z returns a nil error. -/
theorem checkDependencies_missing_dependency_witness :
    ((comp "P" ["Z"] true).GetDependencies = [] ++ "Z" :: [] ∧
     (∀ q ∈ GetComponents appCatalog, q.Name ≠ "Z") ∧
     checkLoop (checkDependencies zeroComp appCatalog () 0) zeroComp appCatalog ()
       (comp "P" ["Z"] true) [] none = some (none, none) ∧
     checkDependencies zeroComp appCatalog () 1 (comp "P" ["Z"] true) none
       = some (some [], some (notFoundError "P" "Z"))) ∧
    ((comp "P" ["Ingress", "Z"] true).GetDependencies = ["Ingress"] ++ "Z" :: [] ∧
     checkLoop (checkDependencies zeroComp appCatalog () 1) zeroComp appCatalog ()
       (comp "P" ["Ingress", "Z"] true) ["Ingress"] none = some (some [("Ingress", true)], none) ∧
     checkDependencies zeroComp appCatalog () 2 (comp "P" ["Ingress", "Z"] true) none
       = some (some [("Ingress", true)], some (notFoundError "P" "Z"))) :=
  ⟨⟨rfl, appCatalog_no_Z, rfl,
    checkDependencies_missing_dependency zeroComp appCatalog () 0 (comp "P" ["Z"] true)
      [] "Z" [] none rfl appCatalog_no_Z rfl⟩,
   ⟨rfl, rfl,
    checkDependencies_missing_dependency zeroComp appCatalog () 1
      (comp "P" ["Ingress", "Z"] true) ["Ingress"] "Z" [] (some [("Ingress", true)]) rfl
      appCatalog_no_Z rfl⟩⟩

/-! ## Readiness and the outcome of the walk -/

/-- C9: the readiness of the components does not change the structural
outcome of the walk.  (1) For two catalogs of the same shape (same names and
dependency lists in the same order, any readiness), components of the same
shape and any two contexts, `checkDependencies(c, ctx, nil)` returns under one
exactly when it returns under the other, with the same error and the same
keys in the trace.  (2) After a successful nested call on a dependency the
loop records its readiness, false when it is not ready, and goes on with the
remaining names.  (3) In the catalog {Ingress(deps:[]), Mesh(deps:[]),
App(deps:[Ingress,Mesh])} with Ingress ready and Mesh not ready the trace is
{Ingress:true, Mesh:false}, the error nil, and
`ComponentDependenciesMet(App)` is false. -/
theorem checkDependencies_outcome_independent_of_readiness (zero zero' : Component Ctx)
    (s s' : State Ctx) (context context' : Ctx) (fuel : Nat) (c c' : Component Ctx)
    (hcat : List.Forall₂ SameShape (GetComponents s) (GetComponents s'))
    (hc : SameShape c c') :
    (checkDependencies zero s context fuel c none).map outcome
      = (checkDependencies zero' s' context' fuel c' none).map outcome ∧
    (∀ recurse d rest t q m', hasKey (madeMap t) d = false →
      FindComponent zero s d = (true, q) →
      recurse q (some (madeMap t)) = some (some m', none) →
      checkLoop recurse zero s context c (d :: rest) t
        = checkLoop recurse zero s context c rest (some (setKey m' d (q.IsReady context)))) ∧
    checkDependencies zeroComp appCatalog () 2 (comp "App" ["Ingress", "Mesh"] true) none
      = some (some [("Ingress", true), ("Mesh", false)], none) ∧
    ComponentDependenciesMet zeroComp appCatalog 2 (comp "App" ["Ingress", "Mesh"] true) ()
      = some false := by
  refine ⟨checkDependencies_outcome_congr zero zero' s s' context context' hcat fuel c c'
    none none hc rfl, ?_, by decide, by decide⟩
  intro recurse d rest t q m' hk hq hnested
  rw [checkLoop_cons]
  simp only [hk, hq, hnested]
  rfl

/-- C9 at a concrete input: the App catalog with Mesh not ready against the
same catalog with every component ready; the second walk returns the trace
{Ingress:true, Mesh:true}. -/
theorem checkDependencies_outcome_independent_of_readiness_witness :
    (checkDependencies zeroComp appCatalog () 2 (comp "App" ["Ingress", "Mesh"] true) none).map
        outcome
      = (checkDependencies zeroComp
          ⟨fun _ => [comp "Ingress" [] true, comp "Mesh" [] true,
            comp "App" ["Ingress", "Mesh"] false]⟩ () 2
          (comp "App" ["Ingress", "Mesh"] false) none).map outcome :=
  (checkDependencies_outcome_independent_of_readiness zeroComp zeroComp appCatalog
    ⟨fun _ => [comp "Ingress" [] true, comp "Mesh" [] true,
      comp "App" ["Ingress", "Mesh"] false]⟩ () () 2
    (comp "App" ["Ingress", "Mesh"] true) (comp "App" ["Ingress", "Mesh"] false)
    (List.Forall₂.cons ⟨rfl, rfl⟩ (List.Forall₂.cons ⟨rfl, rfl⟩
      (List.Forall₂.cons ⟨rfl, rfl⟩ List.Forall₂.nil)))
    ⟨rfl, rfl⟩).1

/-! ## Unready dependencies -/

/-- When `checkDependencies(c, ctx, nil)` returns and some transitive
dependency name of `c` resolves to a component that is not ready,
`ComponentDependenciesMet(c, ctx)` returns false. -/
theorem ComponentDependenciesMet_false_of_unready_of_returns (zero : Component Ctx)
    (s : State Ctx) (context : Ctx) (fuel : Nat) (c : Component Ctx)
    (res : Option GoMap × Option String)
    (hrun : checkDependencies zero s context fuel c none = some res)
    (d : String) (hd : Reach zero s c d)
    (hready : (FindComponent zero s d).2.IsReady context = false) :
    ComponentDependenciesMet zero s fuel c context = some false := by
  obtain ⟨trace, err⟩ := res
  cases err with
  | some e => simp [ComponentDependenciesMet, hrun]
  | none =>
    obtain ⟨_, _, hval, hlow⟩ := traceInv_of_returns zero s context fuel c none _ hrun
    have hkey : d ∈ keys trace := (hlow rfl d hd).1
    cases trace with
    | none => exact absurd hkey (List.not_mem_nil d)
    | some m =>
      obtain ⟨e, he, hed⟩ := List.mem_map.1 hkey
      have hv : e.2 = false := by
        rcases hval e he with h | ⟨h, _⟩
        · exact absurd h (List.not_mem_nil e)
        · rw [h, hed, hready]
      have hlen : len (some m) ≠ 0 := by
        intro h0
        have : m = [] := List.length_eq_zero.1 h0
        rw [this] at he
        exact absurd he (List.not_mem_nil e)
      have hall : (values (some m)).all (fun value => value) = false := by
        rw [List.all_eq_false]
        exact ⟨e.2, List.mem_map.2 ⟨e, he, rfl⟩, by rw [hv]; decide⟩
      simp only [ComponentDependenciesMet, hrun, hlen, if_false, hall]

/-- On an acyclic graph, `ComponentDependenciesMet(c, ctx)` returns false
when some transitive dependency name of `c` resolves to a component that is
not ready. -/
theorem ComponentDependenciesMet_false_of_unready_of_noCycle (zero : Component Ctx)
    (s : State Ctx) (context : Ctx) (c : Component Ctx) (hacyclic : NoCycle zero s c)
    (d : String) (hd : Reach zero s c d)
    (hready : (FindComponent zero s d).2.IsReady context = false) :
    ComponentDependenciesMet zero s ((GetComponents s).length + 1) c context = some false := by
  obtain ⟨res, hrun⟩ := checkDependencies_returns zero s context c hacyclic none
  exact ComponentDependenciesMet_false_of_unready_of_returns zero s context _ c res hrun d hd
    hready

/-! ## A direct 2-cycle -/

/-- In the catalog {X(deps:[Y]), Y(deps:[X])} the nested calls on X and on Y,
started on an empty map, exceed every depth bound: a name enters the map only
after the nested call on it has returned, so the membership test never
fires. -/
theorem cycle_exceeds_fuel (rx ry : Bool) (fuel : Nat) :
    checkDependencies zeroComp (cycleCatalog rx ry) () fuel (comp "X" ["Y"] rx) (some []) = none ∧
    checkDependencies zeroComp (cycleCatalog rx ry) () fuel (comp "Y" ["X"] ry) (some []) = none := by
  induction fuel with
  | zero => exact ⟨rfl, rfl⟩
  | succ n ih =>
    have hX : FindComponent zeroComp (cycleCatalog rx ry) "X" = (true, comp "X" ["Y"] rx) := rfl
    have hY : FindComponent zeroComp (cycleCatalog rx ry) "Y" = (true, comp "Y" ["X"] ry) := rfl
    have kX : hasKey [] "X" = false := by decide
    have kY : hasKey [] "Y" = false := by decide
    constructor
    · rw [checkDependencies]
      show checkLoop _ _ _ _ _ ["Y"] _ = none
      rw [checkLoop_cons]
      simp only [madeMap, kY, hY, ih.2]
      rfl
    · rw [checkDependencies]
      show checkLoop _ _ _ _ _ ["X"] _ = none
      rw [checkLoop_cons]
      simp only [madeMap, kX, hX, ih.1]
      rfl

/-- The call `checkDependencies(X, ctx, nil)` in the catalog
{X(deps:[Y]), Y(deps:[X])} exceeds every depth bound. -/
theorem cycle_exceeds_fuel_nil (rx ry : Bool) (fuel : Nat) :
    checkDependencies zeroComp (cycleCatalog rx ry) () fuel (comp "X" ["Y"] rx) none = none := by
  cases fuel with
  | zero => rfl
  | succ n =>
    have hY : FindComponent zeroComp (cycleCatalog rx ry) "Y" = (true, comp "Y" ["X"] ry) := rfl
    have kY : hasKey [] "Y" = false := by decide
    rw [checkDependencies]
    show checkLoop _ _ _ _ _ ["Y"] _ = none
    rw [checkLoop_cons]
    simp only [madeMap, kY, hY, (cycle_exceeds_fuel rx ry n).2]
    rfl

/-- C2 (failing input): in the catalog {X(deps:[Y]), Y(deps:[X])}, whatever
the readiness of X and Y, `checkDependencies(X, ctx, nil)` returns nothing
within any bound on the depth of nested calls, so it returns no
dependency-cycle error. -/
theorem checkDependencies_two_cycle_diverges (rx ry : Bool) (fuel : Nat) :
    checkDependencies zeroComp (cycleCatalog rx ry) () fuel (comp "X" ["Y"] rx) none = none :=
  cycle_exceeds_fuel_nil rx ry fuel

/-- C4 (failing input): in the catalog {X(deps:[Y]), Y(deps:[X])} with X
ready and Y not ready, Y is a transitive dependency of X that is not ready,
and `ComponentDependenciesMet(X, ctx)` returns nothing within any bound on the
depth of nested calls, so it does not return false. -/
theorem ComponentDependenciesMet_two_cycle_diverges (fuel : Nat) :
    Reach zeroComp (cycleCatalog true false) (comp "X" ["Y"] true) "Y" ∧
    (FindComponent zeroComp (cycleCatalog true false) "Y").2.IsReady () = false ∧
    ComponentDependenciesMet zeroComp (cycleCatalog true false) fuel (comp "X" ["Y"] true) ()
      = none := by
  refine ⟨Reach.direct (List.mem_singleton.2 rfl), rfl, ?_⟩
  simp [ComponentDependenciesMet, cycle_exceeds_fuel_nil true false fuel]

/-! ## The catalog source: override and reset -/

/-- C11: with the catalog source as state, after
`OverrideGetComponentsFn(fn)` the catalog `GetComponents()` is `fn()`, the
same list in the same order; after `ResetGetComponentsFn()` it is the
production `getComponents()` again, also right after an override;
`ResetGetComponentsFn` called twice, or in the initial state, leaves the state
of one call; and a later override replaces an earlier one. -/
theorem GetComponents_override_reset (getComponents fn fn₁ fn₂ : GetCompoentsFnType Ctx)
    (s : State Ctx) :
    GetComponents (OverrideGetComponentsFn fn s) = fn () ∧
    GetComponents (ResetGetComponentsFn getComponents s) = getComponents () ∧
    GetComponents (ResetGetComponentsFn getComponents (OverrideGetComponentsFn fn s))
      = getComponents () ∧
    GetComponents (initialState getComponents) = getComponents () ∧
    ResetGetComponentsFn getComponents (ResetGetComponentsFn getComponents s)
      = ResetGetComponentsFn getComponents s ∧
    ResetGetComponentsFn getComponents (initialState getComponents)
      = initialState getComponents ∧
    ResetGetComponentsFn getComponents (OverrideGetComponentsFn fn s)
      = initialState getComponents ∧
    OverrideGetComponentsFn fn₂ (OverrideGetComponentsFn fn₁ s)
      = OverrideGetComponentsFn fn₂ s ∧
    GetComponents (OverrideGetComponentsFn fn₂ (OverrideGetComponentsFn fn₁ s)) = fn₂ () :=
  ⟨rfl, rfl, rfl, rfl, rfl, rfl, rfl, rfl, rfl⟩

/-- C11 at a concrete input: the App catalog as production catalog, overridden
by the diamond catalog and reset; `FindComponent` follows the catalog in
force. -/
theorem GetComponents_override_reset_witness :
    GetComponents (OverrideGetComponentsFn diamondCatalog.getComponentsFn
      (initialState appCatalog.getComponentsFn)) = GetComponents diamondCatalog ∧
    (FindComponent zeroComp (OverrideGetComponentsFn diamondCatalog.getComponentsFn
      (initialState appCatalog.getComponentsFn)) "Mesh").1 = false ∧
    GetComponents (ResetGetComponentsFn appCatalog.getComponentsFn
      (OverrideGetComponentsFn diamondCatalog.getComponentsFn
        (initialState appCatalog.getComponentsFn))) = GetComponents appCatalog ∧
    (FindComponent zeroComp (ResetGetComponentsFn appCatalog.getComponentsFn
      (OverrideGetComponentsFn diamondCatalog.getComponentsFn
        (initialState appCatalog.getComponentsFn))) "Mesh").1 = true :=
  ⟨(GetComponents_override_reset appCatalog.getComponentsFn diamondCatalog.getComponentsFn
      diamondCatalog.getComponentsFn diamondCatalog.getComponentsFn
      (initialState appCatalog.getComponentsFn)).1,
    rfl,
    (GetComponents_override_reset appCatalog.getComponentsFn diamondCatalog.getComponentsFn
      diamondCatalog.getComponentsFn diamondCatalog.getComponentsFn
      (initialState appCatalog.getComponentsFn)).2.2.1,
    rfl⟩

/-! ## The entries of a successful trace -/

/-- A key of a map variable is read with the value of an entry of that key. -/
theorem getKey_of_mem_keys (trace : Option GoMap) (k : String) (hk : k ∈ keys trace) :
    ∃ e ∈ madeMap trace, e.1 = k ∧ getKey trace k = some e.2 := by
  cases trace with
  | none => exact absurd hk (List.not_mem_nil k)
  | some m =>
    rcases hfind : m.find? (fun e => decide (e.1 = k)) with _ | e
    · obtain ⟨e, he, hek⟩ := List.mem_map.1 hk
      have := List.find?_eq_none.1 hfind e he
      simp only [decide_eq_true_eq] at this
      exact absurd hek this
    · have hp := List.find?_some hfind
      simp only [decide_eq_true_eq] at hp
      exact ⟨e, List.mem_of_find?_eq_some hfind, hp, by simp [getKey, hfind]⟩

/-- C13: when `checkDependencies(c, ctx, nil)` returns a nil error, (1) every
key of the trace is a transitive dependency name of `c`; (2) every direct
dependency of `c` is a key; (3) every key resolves through `FindComponent`
and the value stored for it is `IsReady(ctx)` of the component found; (4) the
trace is empty exactly when `c` declares no dependencies; (5) the readiness of
`c` itself is not consulted: the call returns the same trace for every
`IsReady` of `c`, and when `c` is the catalog component of its name, that name
is no key of the trace. -/
theorem checkDependencies_trace_entries (zero : Component Ctx) (s : State Ctx) (context : Ctx)
    (fuel : Nat) (c : Component Ctx) (trace : Option GoMap)
    (h : checkDependencies zero s context fuel c none = some (trace, none)) :
    (∀ k ∈ keys trace, Reach zero s c k) ∧
    (∀ d ∈ c.GetDependencies, d ∈ keys trace) ∧
    (∀ k ∈ keys trace, (FindComponent zero s k).1 = true ∧
      getKey trace k = some ((FindComponent zero s k).2.IsReady context)) ∧
    (len trace = 0 ↔ c.GetDependencies = []) ∧
    (∀ isReady : Ctx → Bool,
      checkDependencies zero s context fuel ⟨c.Name, c.GetDependencies, isReady⟩ none
        = some (trace, none)) ∧
    (FindComponent zero s c.Name = (true, c) → c.Name ∉ keys trace) := by
  obtain ⟨_, hup, hval, hlow⟩ := traceInv_of_returns zero s context fuel c none _ h
  have hreach : ∀ k ∈ keys trace, Reach zero s c k := by
    intro k hk
    rcases hup k hk with h' | h'
    · exact absurd h' (List.not_mem_nil k)
    · exact h'
  have hdirect : ∀ d ∈ c.GetDependencies, d ∈ keys trace :=
    fun d hd => (hlow rfl d (Reach.direct hd)).1
  refine ⟨hreach, hdirect, ?_, ?_, ?_, ?_⟩
  · intro k hk
    refine ⟨(hlow rfl k (hreach k hk)).2, ?_⟩
    obtain ⟨e, he, hek, hget⟩ := getKey_of_mem_keys trace k hk
    rcases hval e he with h' | ⟨h', _⟩
    · exact absurd h' (List.not_mem_nil e)
    · rw [hget, h', hek]
  · constructor
    · intro hlen
      cases hdeps : c.GetDependencies with
      | nil => rfl
      | cons d rest =>
        have hd : d ∈ keys trace := hdirect d (by rw [hdeps]; exact List.mem_cons_self _ _)
        cases trace with
        | none => exact absurd hd (List.not_mem_nil d)
        | some m =>
          have hm : m = [] := List.length_eq_zero.1 hlen
          rw [hm] at hd
          exact absurd hd (List.not_mem_nil d)
    · intro hdeps
      cases fuel with
      | zero => simp [checkDependencies] at h
      | succ k =>
        rw [checkDependencies, hdeps] at h
        simp only [checkLoop, Option.some.injEq, Prod.mk.injEq, and_true] at h
        rw [← h]
        rfl
  · intro isReady
    cases fuel with
    | zero => simp [checkDependencies] at h
    | succ k =>
      rw [checkDependencies] at h ⊢
      rw [← h]
      exact checkLoop_congr_name zero s context _
        ⟨c.Name, c.GetDependencies, isReady⟩ c rfl c.GetDependencies none
  · intro hself hkey
    exact (tree_of_no_error zero s context fuel c trace h).1 c.Name c (hreach _ hkey) hself
      (hreach _ hkey)

/-- C13 at a concrete input: App over Ingress (ready) and Mesh (not ready). -/
theorem checkDependencies_trace_entries_witness :
    checkDependencies zeroComp appCatalog () 2 (comp "App" ["Ingress", "Mesh"] true) none
      = some (some [("Ingress", true), ("Mesh", false)], none) ∧
    getKey (some [("Ingress", true), ("Mesh", false)]) "Mesh" = some false ∧
    (∀ k ∈ keys (some [("Ingress", true), ("Mesh", false)]),
      (FindComponent zeroComp appCatalog k).1 = true ∧
      getKey (some [("Ingress", true), ("Mesh", false)]) k
        = some ((FindComponent zeroComp appCatalog k).2.IsReady ())) :=
  ⟨rfl, rfl,
    (checkDependencies_trace_entries zeroComp appCatalog () 2
      (comp "App" ["Ingress", "Mesh"] true) (some [("Ingress", true), ("Mesh", false)])
      rfl).2.2.1⟩

/-! ## Termination on acyclic catalogs -/

/-- A transitive dependency name leads along `DependsOn` to the component it
resolves to. -/
theorem TransGen_of_Reach (zero : Component Ctx) (s : State Ctx) {p q : Component Ctx}
    {n : String} (h : Reach zero s p n) (hq : FindComponent zero s n = (true, q)) :
    Relation.TransGen (DependsOn zero s) p q := by
  induction h with
  | direct hd => exact Relation.TransGen.single ⟨_, hd, hq⟩
  | step hd hq' _ ih => exact Relation.TransGen.head ⟨_, hd, hq'⟩ (ih hq)

/-- A component reached along `DependsOn` is what a transitive dependency name
resolves to. -/
theorem Reach_of_TransGen (zero : Component Ctx) (s : State Ctx) {p q : Component Ctx}
    (h : Relation.TransGen (DependsOn zero s) p q) :
    ∃ n, Reach zero s p n ∧ FindComponent zero s n = (true, q) := by
  induction h using Relation.TransGen.head_induction_on with
  | base hpq =>
    obtain ⟨n, hn, hq⟩ := hpq
    exact ⟨n, Reach.direct hn, hq⟩
  | ih hpq _ ih =>
    obtain ⟨d, hd, hd'⟩ := hpq
    obtain ⟨n, hn, hq⟩ := ih
    exact ⟨n, Reach.step hd hd' hn, hq⟩

/-- The component relation has no cycle reachable from `c` exactly when no
transitive dependency name of `c` is one of the component it resolves to. -/
theorem AcyclicFrom_iff_NoCycle (zero : Component Ctx) (s : State Ctx) (c : Component Ctx) :
    AcyclicFrom zero s c ↔ NoCycle zero s c := by
  constructor
  · intro h n q hn hq hr
    exact h q (Relation.TransGen.to_reflTransGen (TransGen_of_Reach zero s hn hq))
      (TransGen_of_Reach zero s hr hq)
  · intro h q hcq hqq
    obtain ⟨n, hn, hq⟩ := Reach_of_TransGen zero s hqq
    rcases Relation.reflTransGen_iff_eq_or_transGen.1 hcq with heq | hcq'
    · subst heq
      exact h n q hn hq hn
    · obtain ⟨m, hm, hq'⟩ := Reach_of_TransGen zero s hcq'
      have hmn : m = n := by
        rw [← (findIn_found zero m q _ hq').2, ← (findIn_found zero n q _ hq).2]
      subst hmn
      exact h m q hm hq hn

/-- The error a call returns is nil, a dependency-cycle error or a
dependency-not-found error. -/
theorem error_shape_of_returns (zero : Component Ctx) (s : State Ctx) (context : Ctx) :
    ∀ (fuel : Nat) (c : Component Ctx) (t : Option GoMap) (res : Option GoMap × Option String),
      checkDependencies zero s context fuel c t = some res →
      res.2 = none ∨ ∃ p d, res.2 = some (cycleError p d) ∨ res.2 = some (notFoundError p d) := by
  apply walk_induction zero s context
    (fun _ _ res =>
      res.2 = none ∨ ∃ p d, res.2 = some (cycleError p d) ∨ res.2 = some (notFoundError p d))
    (fun _ _ _ res =>
      res.2 = none ∨ ∃ p d, res.2 = some (cycleError p d) ∨ res.2 = some (notFoundError p d))
  · intro c t; exact Or.inl rfl
  · intro c d rest t _; exact Or.inr ⟨c.Name, d, Or.inl rfl⟩
  · intro c d rest t _ _; exact Or.inr ⟨c.Name, d, Or.inr rfl⟩
  · intro c d rest t q m' err fuel _ _ _ hP; exact hP
  · intro c d rest t q m' res fuel _ _ _ _ hL; exact hL
  · intro c t res hL; exact hL

/-- C14: when the relation "component `p` declares a dependency name that
`FindComponent` resolves to component `q`" has no cycle reachable from `c`,
(1) `checkDependencies(c, ctx, nil)` returns, with at most as many nested
calls in progress below the call on `c` as the catalog has components, and
what it returns is a nil error, a dependency-cycle error or a
dependency-not-found error.  (2) The nested call on a dependency is made on a
trace without the name of that dependency, which is added after the nested
call has returned a nil error.  (3) So the trace does not bound the recursion:
in the catalog {X(deps:[Y]), Y(deps:[X])} the call on X exceeds every depth
bound. -/
theorem checkDependencies_terminates_of_acyclic (zero : Component Ctx) (s : State Ctx)
    (context : Ctx) (c : Component Ctx) (hacyclic : AcyclicFrom zero s c) :
    (∃ res,
      (∀ fuel, (GetComponents s).length + 1 ≤ fuel →
        checkDependencies zero s context fuel c none = some res) ∧
      (res.2 = none ∨
        ∃ p d, res.2 = some (cycleError p d) ∨ res.2 = some (notFoundError p d))) ∧
    (∀ recurse d rest t q, hasKey (madeMap t) d = false →
      FindComponent zero s d = (true, q) →
      checkLoop recurse zero s context c (d :: rest) t =
        match recurse q (some (madeMap t)) with
        | none => none
        | some (trace', some err) => some (trace', some err)
        | some (trace', none) =>
          checkLoop recurse zero s context c rest
            (some (setKey (trace'.getD (madeMap t)) d (q.IsReady context)))) ∧
    (∀ fuel,
      checkDependencies zeroComp (cycleCatalog true true) () fuel (comp "X" ["Y"] true) none
        = none) := by
  refine ⟨?_, ?_, cycle_exceeds_fuel_nil true true⟩
  · obtain ⟨res, hrun⟩ := checkDependencies_returns zero s context c
      ((AcyclicFrom_iff_NoCycle zero s c).1 hacyclic) none
    exact ⟨res, fun fuel hfuel => checkDependencies_mono zero s context hfuel _ _ _ hrun,
      error_shape_of_returns zero s context _ c none res hrun⟩
  · intro recurse d rest t q hk hq
    rw [checkLoop_cons]
    simp only [hk, hq]
    rfl

/-- C14 at a concrete input: the diamond under A has no cycle, and the call
on A returns the dependency-cycle error for C and D within three nested
calls. -/
theorem checkDependencies_terminates_of_acyclic_witness :
    AcyclicFrom zeroComp diamondCatalog (comp "A" ["B", "C"] true) ∧
    ∃ res,
      (∀ fuel, (GetComponents diamondCatalog).length + 1 ≤ fuel →
        checkDependencies zeroComp diamondCatalog () fuel (comp "A" ["B", "C"] true) none
          = some res) ∧
      (res.2 = none ∨
        ∃ p d, res.2 = some (cycleError p d) ∨ res.2 = some (notFoundError p d)) :=
  ⟨(AcyclicFrom_iff_NoCycle zeroComp diamondCatalog _).2 diamond_NoCycle,
    (checkDependencies_terminates_of_acyclic zeroComp diamondCatalog ()
      (comp "A" ["B", "C"] true)
      ((AcyclicFrom_iff_NoCycle zeroComp diamondCatalog _).2 diamond_NoCycle)).1⟩

end Registry

/-! ## Namespaces of the components that are not ready -/

namespace Helpers

/-- The inner loop on the `nil` map: it returns the variables unchanged for an
empty list and panics at the first namespace otherwise. -/
theorem namespaceLoop_nil_map (namespaces nsList : List String) :
    namespaceLoop namespaces (nsList, none) =
      if namespaces = [] then Except.ok (nsList, none)
      else Except.error "assignment to entry in nil map" := by
  cases namespaces with
  | nil => rfl
  | cons ns rest => rfl

/-- The outer loop on the `nil` map returns the variables unchanged when no
component has a namespace. -/
theorem componentLoop_nil_map_ok (table : String → List String) (nsList : List String) :
    ∀ components : List String, (∀ c ∈ components, table c = []) →
      componentLoop table components (nsList, none) = Except.ok (nsList, none) := by
  intro components
  induction components with
  | nil => intro _; rfl
  | cons c rest ih =>
    intro h
    rw [componentLoop, namespaceLoop_nil_map, if_pos (h c (List.mem_cons_self _ _))]
    exact ih (fun c' hc' => h c' (List.mem_cons_of_mem _ hc'))

/-- The outer loop on the `nil` map panics when some component has at least
one namespace. -/
theorem componentLoop_nil_map_panics (table : String → List String) (nsList : List String) :
    ∀ components : List String, (∃ c ∈ components, table c ≠ []) →
      componentLoop table components (nsList, none)
        = Except.error "assignment to entry in nil map" := by
  intro components
  induction components with
  | nil => rintro ⟨c, hc, _⟩; exact absurd hc (List.not_mem_nil c)
  | cons c rest ih =>
    rintro ⟨c', hc', hne⟩
    rw [componentLoop, namespaceLoop_nil_map]
    by_cases hc : table c = []
    · rw [if_pos hc]
      rcases List.mem_cons.1 hc' with h | h
      · rw [h] at hne; exact absurd hc hne
      · exact ih ⟨c', h, hne⟩
    · rw [if_neg hc]

/-- C12 (failing input): with the one not-ready component "verrazzano" mapped
to the one namespace "verrazzano-system", `GetNamespacesForNotReadyComponents`
does not return the list of that namespace: the variable `nsListMap` is never
made, so the assignment `nsListMap[eachNameSpace] = true` panics.  The same
holds whenever some not-ready component has a namespace; the function
returns, the empty list, only when none has one or when
`GetComponentsNotReady` fails. -/
theorem GetNamespacesForNotReadyComponents_panics :
    GetNamespacesForNotReadyComponents (singleEntry "verrazzano" ["verrazzano-system"])
        (["verrazzano"], none) = Except.error "assignment to entry in nil map" ∧
    (∀ (table : String → List String) (components : List String),
      (∃ c ∈ components, table c ≠ []) →
      GetNamespacesForNotReadyComponents table (components, none)
        = Except.error "assignment to entry in nil map") ∧
    (∀ (table : String → List String) (components : List String),
      (∀ c ∈ components, table c = []) →
      GetNamespacesForNotReadyComponents table (components, none) = Except.ok ([], none)) ∧
    (∀ (table : String → List String) (components : List String) (err : String),
      GetNamespacesForNotReadyComponents table (components, some err)
        = Except.ok ([], some err)) := by
  refine ⟨rfl, ?_, ?_, fun _ _ _ => rfl⟩
  · intro table components h
    simp only [GetNamespacesForNotReadyComponents,
      componentLoop_nil_map_panics table [] components h]
  · intro table components h
    simp only [GetNamespacesForNotReadyComponents,
      componentLoop_nil_map_ok table [] components h]

end Helpers
